import Mathlib

/-!
Verification of the figure/table reference-annotation engine of
`obsidian-pandoc-reference-list` (the final, most complete variant in
`src/src/main.ts`, lines 640-990; the earlier variants in the same file and in
`src/unnamed/part_001` are superseded by it).

The embedding works on `List Char`.  Documents are lists of lines
(`List (List Char)`); the full editor text is the lines joined with a newline,
mirroring CodeMirror's `doc.toString()`.

The three regular expressions of the source are hand-compiled into
deterministic matchers that reproduce JavaScript regex semantics (leftmost
match, greedy `+`/`*`, lazy `*?`, first-alternative preference) for these
specific patterns:

* definition markers  `\{#(fig|tbl):([a-zA-Z0-9_\-]+)(?:\s+.*?)?\}([a-zA-Z])?`
* bare citations      `@(fig|tbl):([a-zA-Z0-9_\-]+)`
* parenthesized refs  `[(（]\s*@(fig|tbl):([a-zA-Z0-9_\-]+)(.*?)[)）]`
* image captions      `!\[(.*?)\]`

Determinization notes (why no backtracking is needed):
* `(fig|tbl)` — the alternatives start with distinct letters, so at most one
  can match and the engine commits to it.
* the id run `[a-zA-Z0-9_\-]+` — id characters are neither `}` nor whitespace
  nor closing parentheses, so giving characters back to the following pattern
  parts can never turn a failure into a success; the maximal run is committed.
* `(?:\s+.*?)?` — the group is tried first (greedy `?`); `\s+` takes the
  maximal whitespace run (shorter runs leave a whitespace character for `.`,
  and whenever the lazy scan from the end of the maximal run fails on a line
  terminator, the extended scans fail on the same terminator); `.*?` stops at
  the first `}` reachable without crossing a line terminator.
* `\s*` before `@` — `@` is not whitespace, so the maximal run is committed.

JavaScript `\s` and the line terminators refused by `.` are reproduced
exactly.
-/

namespace PandocRefs

/-- JavaScript `\s` (WhiteSpace ∪ LineTerminator as used by regex `\s`). -/
def isJsSpace (c : Char) : Bool :=
  c = ' ' || c = '\t' || c = '\n' || c = '\x0b' || c = '\x0c' || c = '\r' ||
  c = Char.ofNat 0xa0 || c = Char.ofNat 0x1680 ||
  (0x2000 ≤ c.toNat && c.toNat ≤ 0x200a) ||
  c = Char.ofNat 0x2028 || c = Char.ofNat 0x2029 || c = Char.ofNat 0x202f ||
  c = Char.ofNat 0x205f || c = Char.ofNat 0x3000 || c = Char.ofNat 0xfeff

/-- JavaScript line terminators: `.` (without the `s` flag) matches any
character except these. -/
def isLineTerm (c : Char) : Bool :=
  c = '\n' || c = '\r' || c = Char.ofNat 0x2028 || c = Char.ofNat 0x2029

/-- A character matched by the JavaScript regex `.` (no `s` flag). -/
def dotMatch (c : Char) : Bool := !isLineTerm c

/-- The id character class `[a-zA-Z0-9_\-]` (ASCII letters and digits). -/
def isIdChar (c : Char) : Bool :=
  c.isAlpha || c.isDigit || c = '_' || c = '-'

/-- Full-width open parenthesis `（`. -/
def fwOpen : Char := Char.ofNat 0xff08

/-- Full-width close parenthesis `）`. -/
def fwClose : Char := Char.ofNat 0xff09

/-- JavaScript `String.prototype.trim`: strip `\s` from both ends. -/
def jsTrim (l : List Char) : List Char :=
  ((l.dropWhile isJsSpace).reverse.dropWhile isJsSpace).reverse

/-- Marker kind, the source's `type` field (`"fig"` or `"tbl"`). -/
inductive Kind where
  | fig
  | tbl
deriving DecidableEq, Repr

/-- Decimal rendering of a counter, as JavaScript template interpolation of a
number produces it. -/
def natStr (n : Nat) : List Char := (toString n).data

/-- `(fig|tbl)` followed by nothing else: try `fig` first, then `tbl`
(the alternatives are mutually exclusive, see the header comment). -/
def matchKind : List Char → Option (Kind × List Char)
  | 'f' :: 'i' :: 'g' :: rest => some (Kind.fig, rest)
  | 't' :: 'b' :: 'l' :: rest => some (Kind.tbl, rest)
  | _ => none

/-- Lazy scan of `.*?\}`: consume `.`-matchable characters up to the first
`}`; fail on a line terminator or end of input.  Returns the rest after the
`}`. -/
def scanToBrace : List Char → Option (List Char)
  | [] => none
  | '}' :: r => some r
  | c :: r => if dotMatch c then scanToBrace r else none

/-- `(?:\s+.*?)?\}` after the id of a definition marker.  Returns the rest
after the closing `}`. -/
def defAfterId : List Char → Option (List Char)
  | '}' :: r => some r
  | c :: r =>
    if isJsSpace c then scanToBrace ((c :: r).dropWhile isJsSpace) else none
  | [] => none

/-- One attempt of the definition-marker pattern
`\{#(fig|tbl):([a-zA-Z0-9_\-]+)(?:\s+.*?)?\}([a-zA-Z])?` anchored at the head
of the input.  Returns `(kind, id, suffix letter, rest)`. -/
def matchDefCore (l : List Char) : Option (Kind × List Char × List Char × List Char) :=
  match l with
  | '{' :: '#' :: rest =>
    match matchKind rest with
    | some (k, r1) =>
      match r1 with
      | ':' :: r2 =>
        let idStr := r2.takeWhile isIdChar
        if idStr.isEmpty then none
        else
          match defAfterId (r2.dropWhile isIdChar) with
          | some r4 =>
            match r4 with
            | c :: r5 => if c.isAlpha then some (k, idStr, [c], r5) else some (k, idStr, [], r4)
            | [] => some (k, idStr, [], [])
          | none => none
      | _ => none
    | none => none
  | _ => none

/-- A definition-marker match: capture groups plus the half-open character
range `[start, stop)` it covers in the scanned text. -/
structure DefMatch where
  kind : Kind
  id : List Char
  sfx : List Char
  start : Nat
  stop : Nat
deriving DecidableEq, Repr

/-- Leftmost definition-marker match in `l`, reporting offsets relative to
`i` (the absolute offset of `l`'s head).  Also returns the unconsumed rest so
that a global scan can resume after the match. -/
def findDefAux : List Char → Nat → Option (DefMatch × List Char)
  | [], _ => none
  | l@(_ :: rest), i =>
    match matchDefCore l with
    | some (k, id, sfx, rem) => some (⟨k, id, sfx, i, i + (l.length - rem.length)⟩, rem)
    | none => findDefAux rest (i + 1)

/-- First (leftmost) definition-marker match: the non-global
`defRegex.exec(lineText)` of `scanDocument`. -/
def findFirstDef (l : List Char) : Option DefMatch :=
  (findDefAux l 0).map Prod.fst

/-- The definition pattern attempted at a fixed position `j` of `l` (used to
state leftmostness). -/
def defMatchAt (l : List Char) (j : Nat) : Option (Kind × List Char × List Char × List Char) :=
  matchDefCore (l.drop j)

/-- Global scan for definition markers (the `/g` loop of the decoration
engine); `fuel` bounds the recursion and is instantiated so it never runs
out. -/
def findAllDefsGo : Nat → List Char → Nat → List DefMatch
  | 0, _, _ => []
  | Nat.succ fuel, l, i =>
    match findDefAux l i with
    | none => []
    | some (m, rem) => m :: findAllDefsGo fuel rem m.stop

/-- All definition-marker matches of `l`, leftmost first, each search resuming
at the end of the previous match (JavaScript `lastIndex`). -/
def findAllDefs (l : List Char) : List DefMatch :=
  findAllDefsGo (l.length + 1) l 0

/-- A bare-citation match `@kind:id` with its character range. -/
structure BareRef where
  kind : Kind
  id : List Char
  start : Nat
  stop : Nat
deriving DecidableEq, Repr

/-- One attempt of the bare-citation pattern `@(fig|tbl):([a-zA-Z0-9_\-]+)`
anchored at the head of the input. -/
def matchBareCore (l : List Char) : Option (Kind × List Char × List Char) :=
  match l with
  | '@' :: rest =>
    match matchKind rest with
    | some (k, r1) =>
      match r1 with
      | ':' :: r2 =>
        let idStr := r2.takeWhile isIdChar
        if idStr.isEmpty then none else some (k, idStr, r2.dropWhile isIdChar)
      | _ => none
    | none => none
  | _ => none

/-- Leftmost bare-citation match with resumption rest. -/
def findBareAux : List Char → Nat → Option (BareRef × List Char)
  | [], _ => none
  | l@(_ :: rest), i =>
    match matchBareCore l with
    | some (k, id, rem) => some (⟨k, id, i, i + (l.length - rem.length)⟩, rem)
    | none => findBareAux rest (i + 1)

/-- Global scan for bare citations (`refGlobalRegex` of `scanDocument`). -/
def findAllBareGo : Nat → List Char → Nat → List BareRef
  | 0, _, _ => []
  | Nat.succ fuel, l, i =>
    match findBareAux l i with
    | none => []
    | some (m, rem) => m :: findAllBareGo fuel rem m.stop

/-- All bare-citation matches of `l`. -/
def findAllBareRefs (l : List Char) : List BareRef :=
  findAllBareGo (l.length + 1) l 0

/-- A parenthesized-citation match with its captured manual suffix. -/
structure ParenRef where
  kind : Kind
  id : List Char
  sfx : List Char
  start : Nat
  stop : Nat
deriving DecidableEq, Repr

/-- Lazy scan of `(.*?)[)）]`: collect `.`-matchable characters up to the
first ASCII or full-width closing parenthesis. -/
def scanToClose : List Char → Option (List Char × List Char)
  | [] => none
  | c :: r =>
    if c = ')' || c = fwClose then some ([], r)
    else if dotMatch c then
      match scanToClose r with
      | some (sfx, rem) => some (c :: sfx, rem)
      | none => none
    else none

/-- One attempt of the parenthesized-citation pattern
`[(（]\s*@(fig|tbl):([a-zA-Z0-9_\-]+)(.*?)[)）]` anchored at the head
of the input. -/
def matchParenCore (l : List Char) : Option (Kind × List Char × List Char × List Char) :=
  match l with
  | c :: rest =>
    if c = '(' || c = fwOpen then
      match rest.dropWhile isJsSpace with
      | '@' :: r2 =>
        match matchKind r2 with
        | some (k, r3) =>
          match r3 with
          | ':' :: r4 =>
            let idStr := r4.takeWhile isIdChar
            if idStr.isEmpty then none
            else
              match scanToClose (r4.dropWhile isIdChar) with
              | some (sfx, rem) => some (k, idStr, sfx, rem)
              | none => none
          | _ => none
        | none => none
      | _ => none
    else none
  | [] => none

/-- Leftmost parenthesized-citation match with resumption rest. -/
def findParenAux : List Char → Nat → Option (ParenRef × List Char)
  | [], _ => none
  | l@(_ :: rest), i =>
    match matchParenCore l with
    | some (k, id, sfx, rem) => some (⟨k, id, sfx, i, i + (l.length - rem.length)⟩, rem)
    | none => findParenAux rest (i + 1)

/-- Global scan for parenthesized citations (`refRegex` of the decoration
engine). -/
def findAllParenGo : Nat → List Char → Nat → List ParenRef
  | 0, _, _ => []
  | Nat.succ fuel, l, i =>
    match findParenAux l i with
    | none => []
    | some (m, rem) => m :: findAllParenGo fuel rem m.stop

/-- All parenthesized-citation matches of `l`. -/
def findAllParenRefs (l : List Char) : List ParenRef :=
  findAllParenGo (l.length + 1) l 0

/-- Lazy scan of `(.*?)\]` for the caption pattern. -/
def scanToRBracket : List Char → Option (List Char)
  | [] => none
  | ']' :: _ => some []
  | c :: r =>
    if dotMatch c then
      match scanToRBracket r with
      | some cap => some (c :: cap)
      | none => none
    else none

/-- Leftmost match of the caption pattern `!\[(.*?)\]`; returns the capture.
If an attempt at a `![` fails (not `![`, or no reachable `]`), the search
resumes at the next character, as JavaScript does. -/
def findCaption : List Char → Option (List Char)
  | [] => none
  | c :: rest =>
    if c = '!' then
      match rest with
      | '[' :: rest2 =>
        match scanToRBracket rest2 with
        | some cap => some cap
        | none => findCaption rest
      | _ => findCaption rest
    else findCaption rest

/-! ## Configuration

`ReferenceListSettings` restricted to the fields the core reads
(`src/unnamed/part_000`, `src/src/settings.tsx`).  The prefix getters
reproduce the `||`-fallback of `getFigurePrefix`/`getTablePrefix`: an empty
configured string is falsy in JavaScript and yields the default. -/

/-- Default figure prefix `FIGURE_PREFIX_DEFAULT`. -/
def figDefault : List Char := ['图']

/-- Default table prefix `TABLE_PREFIX_DEFAULT`. -/
def tblDefault : List Char := ['表']

/-- The configuration fields consumed by the core. -/
structure Settings where
  figurePfx : List Char
  tablePfx : List Char
  enableIntegrityCheck : Bool
  enableAutoBrackets : Bool
deriving DecidableEq, Repr

/-- `getFigurePrefix()`. -/
def getFigPfx (s : Settings) : List Char :=
  if s.figurePfx.isEmpty then figDefault else s.figurePfx

/-- `getTablePrefix()`. -/
def getTblPfx (s : Settings) : List Char :=
  if s.tablePfx.isEmpty then tblDefault else s.tablePfx

/-- Prefix for a kind, as the decoration engine picks it. -/
def pfxOf (s : Settings) : Kind → List Char
  | Kind.fig => getFigPfx s
  | Kind.tbl => getTblPfx s

/-! ## Scanner (`scanDocument`, main.ts lines 757-808)

The source stores the per-kind counter both as the string `number` and inside
`fullLabel`; the embedding keeps the numeric counter in `number` and renders
its decimal string (`natStr`) inside `fullLabel`, exactly where the template
literal interpolates `countStr`. -/

/-- The `PandocDef` record. -/
structure PandocDef where
  id : List Char
  type : Kind
  number : Nat
  sfx : List Char
  caption : List Char
  fullLabel : List Char
  line : Nat
  usageCount : Nat
deriving DecidableEq, Repr

/-- JavaScript `Map.set` on an insertion-ordered association list: replace in
place when the key exists (keeping its position), else append. -/
def mapSet {K V : Type} [DecidableEq K] (k : K) (v : V) : List (K × V) → List (K × V)
  | [] => [(k, v)]
  | (k2, v2) :: rest => if k2 = k then (k, v) :: rest else (k2, v2) :: mapSet k v rest

/-- JavaScript `Map.get` (first matching key). -/
def mapGet {K V : Type} [DecidableEq K] (k : K) : List (K × V) → Option V
  | [] => none
  | (k2, v2) :: rest => if k2 = k then some v2 else mapGet k rest

/-- JavaScript `Set.add` on an insertion-ordered list. -/
def setAdd {K : Type} [DecidableEq K] (s : List K) (k : K) : List K :=
  if k ∈ s then s else s ++ [k]

/-- In-place increment of `usageCount` for the entry with the given key
(`defMap.get(refId)!.usageCount++`). -/
def mapIncUsage (k : List Char) : List (List Char × PandocDef) → List (List Char × PandocDef)
  | [] => []
  | (k2, v) :: rest =>
    if k2 = k then (k2, { v with usageCount := v.usageCount + 1 }) :: rest
    else (k2, v) :: mapIncUsage k rest

/-- The scanner state threaded through the line loop. -/
structure ScanState where
  defs : List (List Char × PandocDef)
  refIds : List (List Char)
  figCount : Nat
  tblCount : Nat
deriving DecidableEq, Repr

/-- One iteration of the scanner's line loop: leftmost definition marker (if
any) is numbered and inserted (last id occurrence wins), then every bare
citation on the line adds its id to `refIds`.

The final variant extracts the caption with `/!\[(.*?)\]/` for both kinds; a
missing match leaves the caption empty. -/
def scanLine (figPfx tblPfx : List Char) (lineIdx : Nat) (l : List Char)
    (st : ScanState) : ScanState :=
  let st1 : ScanState :=
    match findFirstDef l with
    | none => st
    | some m =>
      let caption := (findCaption l).getD []
      match m.kind with
      | Kind.fig =>
        let n := st.figCount + 1
        { st with
          figCount := n
          defs := mapSet m.id
            ⟨m.id, Kind.fig, n, m.sfx, caption, figPfx ++ natStr n ++ m.sfx, lineIdx, 0⟩
            st.defs }
      | Kind.tbl =>
        let n := st.tblCount + 1
        { st with
          tblCount := n
          defs := mapSet m.id
            ⟨m.id, Kind.tbl, n, m.sfx, caption, tblPfx ++ natStr n ++ m.sfx, lineIdx, 0⟩
            st.defs }
  { st1 with refIds := (findAllBareRefs l).foldl (fun s r => setAdd s r.id) st1.refIds }

/-- The scanner's `for` loop over lines (0-based line indices, as stored in
`line: i - 1`). -/
def scanGo (figPfx tblPfx : List Char) : Nat → ScanState → List (List Char) → ScanState
  | _, st, [] => st
  | i, st, l :: rest => scanGo figPfx tblPfx (i + 1) (scanLine figPfx tblPfx i l st) rest

/-- The usage pass: `refIds.forEach(refId => { if (defMap.has(refId))
defMap.get(refId)!.usageCount++ })`. -/
def applyUsage (ds : List (List Char × PandocDef)) (ids : List (List Char)) :
    List (List Char × PandocDef) :=
  ids.foldl (fun ds r => mapIncUsage r ds) ds

/-- `scanDocument`: build the index from the document lines. -/
def scanDocument (s : Settings) (lines : List (List Char)) : ScanState :=
  let st := scanGo (getFigPfx s) (getTblPfx s) 0 ⟨[], [], 0, 0⟩ lines
  { st with defs := applyUsage st.defs st.refIds }

/-! ## Decoration engine (`pandocFigTblField.update`, main.ts lines 811-880) -/

/-- A selection range as CodeMirror exposes it (`range.from`, `range.to`). -/
structure SelRange where
  fromPos : Nat
  toPos : Nat
deriving DecidableEq, Repr

/-- `checkCursorOverlap`: closed-interval intersection between a candidate
span `[f, t]` and any active selection range. -/
def checkCursorOverlap (ranges : List SelRange) (f t : Nat) : Bool :=
  ranges.any fun r => r.fromPos ≤ t && r.toPos ≥ f

/-- An overlay span: the data carried by one replace decoration and its
`LabelWidget`. -/
structure OverlaySpan where
  start : Nat
  stop : Nat
  displayText : List Char
  isDef : Bool
  targetLine : Option Nat
  isError : Bool
deriving DecidableEq, Repr

/-- Orphan flag computed for a definition widget:
`enableCheck && (def.usageCount === 0)`. -/
def defIsError (enableCheck : Bool) (d : PandocDef) : Bool :=
  enableCheck && d.usageCount == 0

/-- Display text of a definition widget:
`def.caption ? label + " " + caption : label` (empty string is falsy). -/
def defDisplay (d : PandocDef) : List Char :=
  if d.caption.isEmpty then d.fullLabel else d.fullLabel ++ ' ' :: d.caption

/-- `doc.toString()`: lines joined with newlines. -/
def docText (lines : List (List Char)) : List Char :=
  List.intercalate ['\n'] lines

/-- Definition overlays: skip spans the cursor touches, then emit a widget for
every marker whose id resolves in the index. -/
def buildDefSpans (text : List Char) (defs : List (List Char × PandocDef))
    (sel : List SelRange) (enableCheck : Bool) : List OverlaySpan :=
  (findAllDefs text).filterMap fun m =>
    if checkCursorOverlap sel m.start m.stop then none
    else
      match mapGet m.id defs with
      | some d => some ⟨m.start, m.stop, defDisplay d, true, none, defIsError enableCheck d⟩
      | none => none

/-- Reference overlays: resolved ids display `(label + trimmed suffix)` and
jump to the definition line; unresolved ids display the `?` placeholder with
`isError` equal to the integrity flag and no jump target. -/
def buildRefSpans (s : Settings) (text : List Char) (defs : List (List Char × PandocDef))
    (sel : List SelRange) : List OverlaySpan :=
  (findAllParenRefs text).filterMap fun m =>
    if checkCursorOverlap sel m.start m.stop then none
    else
      let suf := jsTrim m.sfx
      match mapGet m.id defs with
      | some d =>
        some ⟨m.start, m.stop, '(' :: (d.fullLabel ++ suf) ++ [')'], false, some d.line, false⟩
      | none =>
        some ⟨m.start, m.stop, '(' :: (pfxOf s m.kind ++ '?' :: suf) ++ [')'], false, none,
          s.enableIntegrityCheck⟩

/-- Stable insertion placing `a` after all spans with start offset ≤ its own,
reproducing the stable `widgets.sort((a, b) => a.from - b.from)`. -/
def insertSpan (a : OverlaySpan) : List OverlaySpan → List OverlaySpan
  | [] => [a]
  | b :: rest => if a.start < b.start then a :: b :: rest else b :: insertSpan a rest

/-- Stable sort by start offset. -/
def sortSpans (l : List OverlaySpan) : List OverlaySpan :=
  l.foldl (fun acc a => insertSpan a acc) []

/-- One recompute of the decoration engine: re-scan, build definition then
reference overlays, and hand back the set sorted by start offset. -/
def buildDecorations (s : Settings) (lines : List (List Char)) (sel : List SelRange) :
    List OverlaySpan :=
  let text := docText lines
  let defs := (scanDocument s lines).defs
  sortSpans (buildDefSpans text defs sel s.enableIntegrityCheck ++ buildRefSpans s text defs sel)

/-! ## Suggestion provider (`FigureTableSuggest`, main.ts lines 883-927) -/

/-- `:?` followed by id characters up to the end of the prefix.  The
backtracked branch (not consuming a present `:`) can never succeed because
`:` is not an id character, so the greedy consumption is committed. -/
def colonIdEnd : List Char → Bool
  | [] => true
  | c :: rest => if c = ':' then rest.all isIdChar else (c :: rest).all isIdChar

/-- One alternative of `(fig|tbl)?` followed by `:?` and id characters up to
the end. -/
def kindColonId (k r : List Char) : Bool :=
  if k.isPrefixOf r then colonIdEnd (r.drop k.length) else false

/-- `((fig|tbl)?:?[a-zA-Z0-9_\-]*)$` after a `@`: try the `fig` alternative,
then `tbl`, then the empty option. -/
def triggerTail (r : List Char) : Bool :=
  kindColonId ['f', 'i', 'g'] r || kindColonId ['t', 'b', 'l'] r || colonIdEnd r

/-- The trigger pattern attempted at one start position (must reach the end
of the prefix because of the `$` anchor). -/
def matchTriggerAt : List Char → Bool
  | [] => false
  | c :: rest => c = '@' && triggerTail rest

/-- Leftmost start position at which the trigger pattern matches; returns
`match.index` and `match[0]` (the whole matched suffix). -/
def findTrigger : List Char → Nat → Option (Nat × List Char)
  | [], _ => none
  | l@(_ :: rest), p =>
    if matchTriggerAt l then some (p, l) else findTrigger rest (p + 1)

/-- `onTrigger`: match `(@(fig|tbl)?:?([a-zA-Z0-9_\-]*))$` against the line
prefix up to the cursor. -/
def onTrigger (line : List Char) (ch : Nat) : Option (Nat × List Char) :=
  findTrigger (line.take ch) 0

/-- The test `/[\(（]\s*$/.test(prefix)` of `selectSuggestion`: some open
parenthesis is followed only by whitespace up to the end of the prefix. -/
def testOpenParenWs : List Char → Bool
  | [] => false
  | c :: rest => ((c = '(' || c = fwOpen) && rest.all isJsSpace) || testOpenParenWs rest

/-- The bare citation text `@${def.type}:${def.id}`. -/
def bareCite (d : PandocDef) : List Char :=
  '@' :: (match d.type with | Kind.fig => ['f', 'i', 'g'] | Kind.tbl => ['t', 'b', 'l']) ++
    ':' :: d.id

/-- The text `selectSuggestion` inserts over the triggered range: parentheses
are added only when auto-brackets is on and the line text before the trigger
start does not end in an open parenthesis followed by whitespace. -/
def selectSuggestionText (useBrackets : Bool) (linePfx : List Char) (d : PandocDef) :
    List Char :=
  if useBrackets && !testOpenParenWs linePfx then '(' :: bareCite d ++ [')']
  else bareCite d

/-! ## Navigator (`FigureNavigatorView.updateView`, main.ts lines 944-986) -/

/-- Orphan flag of a navigator item: `enableCheck && def.usageCount === 0`. -/
def navIsOrphan (enableCheck : Bool) (d : PandocDef) : Bool :=
  enableCheck && d.usageCount == 0

/-- One sidebar entry. -/
structure NavEntry where
  text : List Char
  isOrphan : Bool
  line : Nat
deriving DecidableEq, Repr

/-- The navigator list: one entry per index definition in map iteration
order, text `${def.fullLabel} ${def.caption || ""}`. -/
def navEntries (s : Settings) (lines : List (List Char)) : List NavEntry :=
  (scanDocument s lines).defs.map fun e =>
    ⟨e.2.fullLabel ++ ' ' :: e.2.caption, navIsOrphan s.enableIntegrityCheck e.2, e.2.line⟩

/-! ## Spec-side predicates and derived notions

These definitions follow the wording of the specification (not the code) and
are used to state refinement theorems comparing code behavior against it, as
well as to state counterexamples. -/

/-- Element at index `n`, with default (the invariant proofs index the line
list with it). -/
def nthD {α : Type} (l : List α) (n : Nat) (d : α) : α :=
  match l, n with
  | [], _ => d
  | a :: _, 0 => a
  | _ :: t, Nat.succ n => nthD t n d

/-- Count of elements satisfying a Boolean predicate. -/
def countB {α : Type} (p : α → Bool) : List α → Nat
  | [] => 0
  | a :: t => (if p a then 1 else 0) + countB p t

/-- A definition with its usage counter reset; two definitions with equal
`stripUsage` agree on every field except `usageCount`. -/
def stripUsage (d : PandocDef) : PandocDef := { d with usageCount := 0 }

/-- Spec-side trigger condition: the line prefix up to the cursor ends with
`@` followed by an optional partial kind, an optional colon, and id
characters. -/
def specTrigger (sub : List Char) : Prop :=
  ∃ pre k c idc, sub = pre ++ '@' :: (k ++ c ++ idc) ∧
    (k = [] ∨ k = ['f', 'i', 'g'] ∨ k = ['t', 'b', 'l']) ∧
    (c = [] ∨ c = [':']) ∧ ∀ ch ∈ idc, isIdChar ch = true

/-- Spec-side condition of the auto-bracket exception: the text ends with an
open parenthesis (ASCII or full-width) followed only by whitespace. -/
def specOpenParenWs (l : List Char) : Prop :=
  ∃ a p w, l = a ++ p :: w ∧ (p = '(' ∨ p = fwOpen) ∧ ∀ c ∈ w, isJsSpace c = true

/-- Number of bare-citation textual occurrences in the document whose id is
the given one (what the claim about `usageCount` counts). -/
def bareRefOccurrences (lines : List (List Char)) (id : List Char) : Nat :=
  (lines.map (fun l =>
    ((findAllBareRefs l).filter (fun r => r.id = id)).length)).sum

/-- The ids contributed by each line's recognized (leftmost) definition
marker, in document order. -/
def defIdsOf (lines : List (List Char)) : List (List Char) :=
  lines.filterMap fun l => (findFirstDef l).map fun m => m.id

/-- The kind of the definition marker recognized on a line, if any. -/
def lineKind (l : List Char) : Option Kind :=
  (findFirstDef l).map fun m => m.kind

/-- Number of lines among the given ones whose recognized definition marker
has the given kind. -/
def countKind (k : Kind) (ls : List (List Char)) : Nat :=
  countB (fun l => decide (lineKind l = some k)) ls

/-- Two spans overlap when each starts strictly before the other ends
(half-open ranges). -/
@[reducible]
def spansOverlap (a b : OverlaySpan) : Prop :=
  a.start < b.stop ∧ b.start < a.stop

/-- A settings value with the default prefixes and both the integrity check
and auto-brackets enabled (the shipped defaults). -/
def stdSettings : Settings := ⟨['图'], ['表'], true, true⟩

/-- A sample definition record used to instantiate suggestion-commit
statements. -/
def sampleDef : PandocDef := ⟨['x'], Kind.fig, 1, [], [], ['图', '1'], 0, 0⟩

/-- A placeholder span used as `getD` default in concrete statements. -/
def noSpan : OverlaySpan := ⟨0, 0, [], false, none, false⟩

/-- A document whose only line nests a parenthesized citation inside the
attribute text of a definition marker. -/
def overlapDoc : List (List Char) := ["\x7b#fig:a (@fig:b)\x7d x".data]

/-- A selection far beyond the end of every document used in concrete
statements, so that no span is suppressed. -/
def farSel : List SelRange := [⟨100, 100⟩]

/-- Document with one figure definition and three bare citations of it. -/
def tripleCiteDoc : List (List Char) :=
  ["\x7b#fig:x\x7d".data, "@fig:x @fig:x @fig:x".data]

/-- Document redefining the same figure id on a second line. -/
def redefDoc : List (List Char) := ["\x7b#fig:a\x7d".data, "\x7b#fig:a\x7d".data]

/-- Document with two distinct figure definitions. -/
def twoFigDoc : List (List Char) := ["\x7b#fig:a\x7d".data, "\x7b#fig:b\x7d".data]

/-- Document with one resolved parenthesized citation carrying a manual
suffix. -/
def resolvedRefDoc : List (List Char) :=
  ["![Granite](i.png)\x7b#fig:granite\x7d".data, "(@fig:granite a)".data]

/-- Document with a single unresolved parenthesized citation. -/
def brokenRefDoc : List (List Char) := ["(@fig:missing)".data]

/-- Document with two definition markers on the same line. -/
def twoMarkerLineDoc : List (List Char) := ["\x7b#fig:a\x7d \x7b#tbl:b\x7d".data]

/-- A placeholder index entry used as `getD` default in concrete
statements. -/
def noDef : List Char × PandocDef := ([], ⟨[], Kind.fig, 0, [], [], [], 0, 0⟩)

/-- The scanner state after the line loop, before the usage pass. -/
def scanPre (s : Settings) (lines : List (List Char)) : ScanState :=
  scanGo (getFigPfx s) (getTblPfx s) 0 ⟨[], [], 0, 0⟩ lines

/-- Invariant of the scanner's line loop after processing the lines `hist`:
counters equal the per-kind line counts, the map's keys are unique, every
entry records the leftmost definition marker of its (0-based) source line
with the per-kind count up to that line as its sequence number and a zero
usage count, `refIds` is a duplicate-free list of exactly the cited ids, and
— when no id is contributed twice — every line's definition marker survives
in the map. -/
structure ScanInv (hist : List (List Char)) (st : ScanState) : Prop where
  keysNodup : (st.defs.map Prod.fst).Nodup
  entry : ∀ e ∈ st.defs,
    e.2.usageCount = 0 ∧ e.2.id = e.1 ∧ e.2.line < hist.length ∧
    (∃ m, findFirstDef (nthD hist e.2.line []) = some m ∧ m.id = e.1 ∧ m.kind = e.2.type) ∧
    e.2.number = countKind e.2.type (hist.take (e.2.line + 1))
  figCount : st.figCount = countKind Kind.fig hist
  tblCount : st.tblCount = countKind Kind.tbl hist
  refNodup : st.refIds.Nodup
  refMem : ∀ x, x ∈ st.refIds ↔ ∃ l ∈ hist, ∃ r ∈ findAllBareRefs l, r.id = x
  survival : (defIdsOf hist).Nodup →
    ∀ j, j < hist.length → ∀ m, findFirstDef (nthD hist j []) = some m →
      ∃ d, mapGet m.id st.defs = some d ∧ d.line = j ∧ d.type = m.kind

/-! ## List utilities

Small self-contained helpers used by the scanner invariants. -/

theorem nthD_append_left {α : Type} (xs ys : List α) (n : Nat) (d : α)
    (h : n < xs.length) : nthD (xs ++ ys) n d = nthD xs n d := by
  induction xs generalizing n with
  | nil => simp at h
  | cons a t ih =>
    cases n with
    | zero => rfl
    | succ n => exact ih n (Nat.lt_of_succ_lt_succ h)

theorem nthD_append_len {α : Type} (xs ys : List α) (a : α) (d : α) :
    nthD (xs ++ a :: ys) xs.length d = a := by
  induction xs with
  | nil => rfl
  | cons b t ih => exact ih

theorem countB_append {α : Type} (p : α → Bool) (xs ys : List α) :
    countB p (xs ++ ys) = countB p xs + countB p ys := by
  induction xs with
  | nil => simp [countB]
  | cons a t ih => simp [countB, ih, Nat.add_assoc]

theorem take_append_le {α : Type} (xs ys : List α) (n : Nat) (h : n ≤ xs.length) :
    (xs ++ ys).take n = xs.take n := by
  induction xs generalizing n with
  | nil =>
    cases n with
    | zero => rfl
    | succ n => simp at h
  | cons a t ih =>
    cases n with
    | zero => rfl
    | succ n => simp [List.take, ih n (Nat.le_of_succ_le_succ h)]

theorem take_ge {α : Type} (l : List α) (n : Nat) (h : l.length ≤ n) :
    l.take n = l := by
  induction l generalizing n with
  | nil => simp
  | cons a t ih =>
    cases n with
    | zero => simp at h
    | succ n => simp [List.take, ih n (Nat.le_of_succ_le_succ h)]

theorem take_succ_nthD {α : Type} (l : List α) (n : Nat) (d : α) (h : n < l.length) :
    l.take (n + 1) = l.take n ++ [nthD l n d] := by
  induction l generalizing n with
  | nil => simp at h
  | cons a t ih =>
    cases n with
    | zero => rfl
    | succ n => simp [List.take, nthD, ih n (Nat.lt_of_succ_lt_succ h)]

theorem countB_take_le {α : Type} (p : α → Bool) (l : List α) (m n : Nat)
    (h : m ≤ n) : countB p (l.take m) ≤ countB p (l.take n) := by
  induction n with
  | zero => cases Nat.le_zero.mp h; exact Nat.le_refl _
  | succ n ih =>
    rcases Nat.lt_or_ge m (n + 1) with hm | hm
    · rcases Nat.lt_or_ge n l.length with hn | hn
      · calc countB p (l.take m) ≤ countB p (l.take n) := ih (Nat.le_of_lt_succ hm)
          _ ≤ countB p (l.take (n + 1)) := by
            rw [take_succ_nthD l n (l.get ⟨0, by omega⟩) hn, countB_append]
            exact Nat.le_add_right _ _
      · rw [take_ge l (n + 1) (Nat.le_succ_of_le hn)]
        rw [take_ge l n hn] at ih
        exact ih (Nat.le_of_lt_succ hm)
    · have : m = n + 1 := Nat.le_antisymm h hm
      subst this
      exact Nat.le_refl _

theorem countB_take_lt {α : Type} (p : α → Bool) (l : List α) (i j : Nat) (d : α)
    (hij : i < j) (hj : j < l.length) (hp : p (nthD l j d) = true) :
    countB p (l.take (i + 1)) < countB p (l.take (j + 1)) := by
  have hsucc : l.take (j + 1) = l.take j ++ [nthD l j d] := take_succ_nthD l j d hj
  have h1 : countB p (l.take (j + 1)) = countB p (l.take j) + 1 := by
    rw [hsucc, countB_append]
    simp [countB, hp]
  have h2 : countB p (l.take (i + 1)) ≤ countB p (l.take j) :=
    countB_take_le p l (i + 1) j hij
  omega

theorem nodup_concat {α : Type} (l : List α) (a : α) (hl : l.Nodup) (ha : a ∉ l) :
    (l ++ [a]).Nodup := by
  induction l with
  | nil => simp
  | cons b t ih =>
    rw [List.nodup_cons] at hl
    have hab : a ≠ b := fun hh => ha (by rw [hh]; exact List.mem_cons_self b t)
    have hb : a ∉ t := fun hh => ha (List.mem_cons_of_mem b hh)
    rw [List.cons_append, List.nodup_cons]
    refine ⟨?_, ih hl.2 hb⟩
    intro hmem
    rcases List.mem_append.mp hmem with hmm | hmm
    · exact hl.1 hmm
    · have hba : b = a := by simpa using hmm
      exact hab hba.symm

theorem countB_nodup_mem {α : Type} [DecidableEq α] (l : List α) (k : α)
    (h : l.Nodup) : countB (fun x => decide (x = k)) l = if k ∈ l then 1 else 0 := by
  induction l with
  | nil => rfl
  | cons a t ih =>
    rw [List.nodup_cons] at h
    by_cases hk : a = k
    · subst hk
      simp [countB, h.1, ih h.2]
    · have hne : ¬k = a := fun hh => hk hh.symm
      simp [countB, hk, ih h.2, List.mem_cons, hne]

/-! ## Association-list and set lemmas -/

theorem mapGet_mapSet {K V : Type} [DecidableEq K] (k k2 : K) (v : V)
    (ds : List (K × V)) :
    mapGet k2 (mapSet k v ds) = if k2 = k then some v else mapGet k2 ds := by
  induction ds with
  | nil =>
    by_cases h : k2 = k
    · subst h
      simp [mapSet, mapGet]
    · have h2 : ¬k = k2 := fun hh => h hh.symm
      simp [mapSet, mapGet, h, h2]
  | cons e rest ih =>
    obtain ⟨k3, v3⟩ := e
    by_cases h3 : k3 = k
    · subst h3
      by_cases h2 : k2 = k3
      · subst h2
        simp [mapSet, mapGet]
      · have h4 : ¬k3 = k2 := fun hh => h2 hh.symm
        simp [mapSet, mapGet, h2, h4]
    · simp only [mapSet, if_neg h3]
      by_cases h2 : k3 = k2
      · subst h2
        simp [mapGet, h3]
      · simp only [mapGet, if_neg h2]
        exact ih

theorem mem_mapSet {K V : Type} [DecidableEq K] (k : K) (v : V)
    (ds : List (K × V)) (e : K × V) (h : e ∈ mapSet k v ds) :
    e = (k, v) ∨ e ∈ ds := by
  induction ds with
  | nil => simpa [mapSet] using h
  | cons e2 rest ih =>
    obtain ⟨k2, v2⟩ := e2
    by_cases h2 : k2 = k
    · simp only [mapSet, h2, if_pos rfl] at h
      rcases List.mem_cons.mp h with h | h
      · exact Or.inl h
      · exact Or.inr (List.mem_cons_of_mem _ h)
    · simp only [mapSet, h2, if_neg h2] at h
      rcases List.mem_cons.mp h with h | h
      · exact Or.inr (h ▸ List.mem_cons_self _ _)
      · rcases ih h with h | h
        · exact Or.inl h
        · exact Or.inr (List.mem_cons_of_mem _ h)

theorem keys_mapSet {K V : Type} [DecidableEq K] (k : K) (v : V)
    (ds : List (K × V)) :
    (mapSet k v ds).map Prod.fst =
      if k ∈ ds.map Prod.fst then ds.map Prod.fst else ds.map Prod.fst ++ [k] := by
  induction ds with
  | nil => simp [mapSet]
  | cons e rest ih =>
    obtain ⟨k2, v2⟩ := e
    by_cases h2 : k2 = k
    · subst h2
      simp [mapSet]
    · have hne : ¬k = k2 := fun hh => h2 hh.symm
      by_cases hm : k ∈ rest.map Prod.fst <;>
        simp [mapSet, h2, ih, hm, List.mem_cons, hne]

theorem keysNodup_mapSet {K V : Type} [DecidableEq K] (k : K) (v : V)
    (ds : List (K × V)) (h : (ds.map Prod.fst).Nodup) :
    ((mapSet k v ds).map Prod.fst).Nodup := by
  rw [keys_mapSet]
  by_cases hm : k ∈ ds.map Prod.fst
  · simpa [hm] using h
  · simpa [hm] using nodup_concat _ k h hm

theorem mapGet_mem {K V : Type} [DecidableEq K] (k : K) (v : V)
    (ds : List (K × V)) (h : mapGet k ds = some v) : (k, v) ∈ ds := by
  induction ds with
  | nil => simp [mapGet] at h
  | cons e rest ih =>
    obtain ⟨k2, v2⟩ := e
    by_cases h2 : k2 = k
    · subst h2
      simp [mapGet] at h
      subst h
      exact List.mem_cons_self _ _
    · simp only [mapGet, if_neg h2] at h
      exact List.mem_cons_of_mem _ (ih h)

theorem mem_mapGet {K V : Type} [DecidableEq K] (k : K) (v : V)
    (ds : List (K × V)) (hn : (ds.map Prod.fst).Nodup) (h : (k, v) ∈ ds) :
    mapGet k ds = some v := by
  induction ds with
  | nil => simp at h
  | cons e rest ih =>
    obtain ⟨k2, v2⟩ := e
    rw [List.map_cons, List.nodup_cons] at hn
    rcases List.mem_cons.mp h with heq | hmem
    · injection heq with hk hv
      subst hk
      subst hv
      simp [mapGet]
    · by_cases h2 : k2 = k
      · subst h2
        exact absurd (List.mem_map_of_mem Prod.fst hmem) hn.1
      · simp only [mapGet, if_neg h2]
        exact ih hn.2 hmem

theorem keysNodup_unique {K V : Type} [DecidableEq K] (k : K) (v1 v2 : V)
    (ds : List (K × V)) (hn : (ds.map Prod.fst).Nodup)
    (h1 : (k, v1) ∈ ds) (h2 : (k, v2) ∈ ds) : v1 = v2 := by
  have e1 := mem_mapGet k v1 ds hn h1
  have e2 := mem_mapGet k v2 ds hn h2
  rw [e1] at e2
  injection e2

theorem mem_setAdd {K : Type} [DecidableEq K] (s : List K) (k x : K) :
    x ∈ setAdd s k ↔ x ∈ s ∨ x = k := by
  unfold setAdd
  by_cases h : k ∈ s
  · simp only [if_pos h]
    constructor
    · exact Or.inl
    · rintro (hx | rfl)
      · exact hx
      · exact h
  · simp [if_neg h, List.mem_append]

theorem nodup_setAdd {K : Type} [DecidableEq K] (s : List K) (k : K)
    (h : s.Nodup) : (setAdd s k).Nodup := by
  unfold setAdd
  by_cases hm : k ∈ s
  · simpa [hm] using h
  · simpa [hm] using nodup_concat s k h hm

theorem foldl_setAddId_mem (ms : List BareRef) (s0 : List (List Char)) (x : List Char) :
    x ∈ ms.foldl (fun s r => setAdd s r.id) s0 ↔ x ∈ s0 ∨ ∃ r ∈ ms, r.id = x := by
  induction ms generalizing s0 with
  | nil => simp
  | cons a t ih =>
    simp only [List.foldl_cons, ih, mem_setAdd]
    constructor
    · rintro ((hx | rfl) | ⟨r, hr, rfl⟩)
      · exact Or.inl hx
      · exact Or.inr ⟨a, List.mem_cons_self _ _, rfl⟩
      · exact Or.inr ⟨r, List.mem_cons_of_mem _ hr, rfl⟩
    · rintro (hx | ⟨r, hr, rfl⟩)
      · exact Or.inl (Or.inl hx)
      · rcases List.mem_cons.mp hr with rfl | hr
        · exact Or.inl (Or.inr rfl)
        · exact Or.inr ⟨r, hr, rfl⟩

theorem foldl_setAddId_nodup (ms : List BareRef) (s0 : List (List Char))
    (h : s0.Nodup) : (ms.foldl (fun s r => setAdd s r.id) s0).Nodup := by
  induction ms generalizing s0 with
  | nil => exact h
  | cons a t ih => exact ih _ (nodup_setAdd _ _ h)

/-! ## Usage-pass lemmas -/

theorem mapGet_mapIncUsage (j k : List Char) (ds : List (List Char × PandocDef)) :
    mapGet k (mapIncUsage j ds) =
      if j = k then
        (mapGet k ds).map fun v => { v with usageCount := v.usageCount + 1 }
      else mapGet k ds := by
  induction ds with
  | nil =>
    by_cases h : j = k <;> simp [mapIncUsage, mapGet, h]
  | cons e rest ih =>
    obtain ⟨k2, v2⟩ := e
    by_cases h2 : k2 = j
    · subst h2
      by_cases hk : k2 = k
      · subst hk
        simp [mapIncUsage, mapGet]
      · have hk2 : ¬k2 = k := hk
        simp [mapIncUsage, mapGet, hk, hk2]
    · by_cases hk : k2 = k
      · subst hk
        have hjk : ¬j = k2 := fun hh => h2 hh.symm
        simp [mapIncUsage, mapGet, h2, hjk]
      · simp [mapIncUsage, mapGet, h2, hk, ih]

theorem mapIncUsage_strip (j : List Char) (ds : List (List Char × PandocDef)) :
    (mapIncUsage j ds).map (fun e => (e.1, stripUsage e.2)) =
      ds.map fun e => (e.1, stripUsage e.2) := by
  induction ds with
  | nil => rfl
  | cons e rest ih =>
    obtain ⟨k2, v2⟩ := e
    by_cases h2 : k2 = j
    · simp only [mapIncUsage, if_pos h2, List.map_cons]
      rfl
    · simp only [mapIncUsage, if_neg h2, List.map_cons, ih]

theorem applyUsage_strip (ds : List (List Char × PandocDef)) (ids : List (List Char)) :
    (applyUsage ds ids).map (fun e => (e.1, stripUsage e.2)) =
      ds.map fun e => (e.1, stripUsage e.2) := by
  induction ids generalizing ds with
  | nil => rfl
  | cons j t ih =>
    have step : applyUsage ds (j :: t) = applyUsage (mapIncUsage j ds) t := rfl
    rw [step, ih (mapIncUsage j ds), mapIncUsage_strip]

theorem keys_applyUsage (ds : List (List Char × PandocDef)) (ids : List (List Char)) :
    (applyUsage ds ids).map Prod.fst = ds.map Prod.fst := by
  have h := congrArg (List.map Prod.fst) (applyUsage_strip ds ids)
  simpa [List.map_map, Function.comp] using h

theorem mem_applyUsage_strip (ds : List (List Char × PandocDef))
    (ids : List (List Char)) (e : List Char × PandocDef) (h : e ∈ applyUsage ds ids) :
    ∃ e0 ∈ ds, e0.1 = e.1 ∧ stripUsage e0.2 = stripUsage e.2 := by
  have hm : (e.1, stripUsage e.2) ∈ (applyUsage ds ids).map (fun e => (e.1, stripUsage e.2)) :=
    List.mem_map_of_mem _ h
  rw [applyUsage_strip] at hm
  rcases List.mem_map.mp hm with ⟨e0, he0, heq⟩
  injection heq with h1 h2
  exact ⟨e0, he0, h1, h2⟩

theorem mapGet_applyUsage (ds : List (List Char × PandocDef)) (ids : List (List Char))
    (k : List Char) :
    mapGet k (applyUsage ds ids) =
      (mapGet k ds).map fun v =>
        { v with usageCount := v.usageCount + countB (fun x => decide (x = k)) ids } := by
  induction ids generalizing ds with
  | nil =>
    show mapGet k ds = _
    cases mapGet k ds <;> rfl
  | cons j t ih =>
    have step : applyUsage ds (j :: t) = applyUsage (mapIncUsage j ds) t := rfl
    rw [step, ih (mapIncUsage j ds), mapGet_mapIncUsage]
    by_cases hj : j = k
    · rw [if_pos hj]
      have hc : countB (fun x : List Char => decide (x = k)) (j :: t) =
          1 + countB (fun x : List Char => decide (x = k)) t := by
        simp [countB, hj]
      rw [hc]
      cases mapGet k ds with
      | none => rfl
      | some v =>
        simp only [Option.map_some']
        congr 1
        simp [Nat.add_assoc]
    · rw [if_neg hj]
      have hc : countB (fun x : List Char => decide (x = k)) (j :: t) =
          countB (fun x : List Char => decide (x = k)) t := by
        simp [countB, hj]
      rw [hc]

/-! ## Sorting lemmas -/

theorem mem_insertSpan (a b : OverlaySpan) (l : List OverlaySpan) :
    b ∈ insertSpan a l ↔ b = a ∨ b ∈ l := by
  induction l with
  | nil => simp [insertSpan]
  | cons c t ih =>
    by_cases h : a.start < c.start
    · simp [insertSpan, h, List.mem_cons]
    · simp only [insertSpan, if_neg h, List.mem_cons, ih]
      tauto

theorem mem_sortSpans_aux (l acc : List OverlaySpan) (b : OverlaySpan) :
    b ∈ l.foldl (fun acc a => insertSpan a acc) acc ↔ b ∈ acc ∨ b ∈ l := by
  induction l generalizing acc with
  | nil => simp
  | cons a t ih =>
    simp only [List.foldl_cons, ih, mem_insertSpan, List.mem_cons]
    tauto

theorem mem_sortSpans (l : List OverlaySpan) (b : OverlaySpan) :
    b ∈ sortSpans l ↔ b ∈ l := by
  unfold sortSpans
  rw [mem_sortSpans_aux]
  simp

theorem pairwise_insertSpan (a : OverlaySpan) (l : List OverlaySpan)
    (h : l.Pairwise fun x y => x.start ≤ y.start) :
    (insertSpan a l).Pairwise fun x y => x.start ≤ y.start := by
  induction l with
  | nil => simp [insertSpan]
  | cons c t ih =>
    rw [List.pairwise_cons] at h
    by_cases hlt : a.start < c.start
    · rw [insertSpan, if_pos hlt, List.pairwise_cons]
      constructor
      · intro b hb
        rcases List.mem_cons.mp hb with rfl | hb
        · exact Nat.le_of_lt hlt
        · exact Nat.le_trans (Nat.le_of_lt hlt) (h.1 b hb)
      · rw [List.pairwise_cons]
        exact h
    · rw [insertSpan, if_neg hlt, List.pairwise_cons]
      constructor
      · intro b hb
        rcases (mem_insertSpan a b t).mp hb with rfl | hb
        · exact Nat.le_of_not_lt hlt
        · exact h.1 b hb
      · exact ih h.2

theorem pairwise_sortSpans_aux (l acc : List OverlaySpan)
    (h : acc.Pairwise fun x y => x.start ≤ y.start) :
    (l.foldl (fun acc a => insertSpan a acc) acc).Pairwise fun x y => x.start ≤ y.start := by
  induction l generalizing acc with
  | nil => exact h
  | cons a t ih => exact ih _ (pairwise_insertSpan a acc h)

theorem pairwise_sortSpans (l : List OverlaySpan) :
    (sortSpans l).Pairwise fun x y => x.start ≤ y.start :=
  pairwise_sortSpans_aux l [] List.Pairwise.nil

/-! ## Trigger-pattern lemmas -/

theorem colonIdEnd_iff (r : List Char) :
    colonIdEnd r = true ↔
      ∃ c idc, r = c ++ idc ∧ (c = [] ∨ c = [':']) ∧ ∀ ch ∈ idc, isIdChar ch = true := by
  cases r with
  | nil =>
    simp only [colonIdEnd, true_iff]
    exact ⟨[], [], rfl, Or.inl rfl, fun ch hch => absurd hch (List.not_mem_nil ch)⟩
  | cons c2 rest =>
    by_cases hc : c2 = ':'
    · subst hc
      rw [colonIdEnd, if_pos rfl]
      constructor
      · intro h
        exact ⟨[':'], rest, rfl, Or.inr rfl, List.all_eq_true.mp h⟩
      · rintro ⟨c, idc, heq, hck, hid⟩
        rcases hck with rfl | rfl
        · rw [List.nil_append] at heq
          subst heq
          exact absurd (hid ':' (List.mem_cons_self _ _)) (by decide)
        · rw [List.cons_append, List.nil_append] at heq
          injection heq with h0 h1
          exact List.all_eq_true.mpr fun x hx => hid x (h1 ▸ hx)
    · rw [colonIdEnd, if_neg hc]
      constructor
      · intro h
        exact ⟨[], c2 :: rest, rfl, Or.inl rfl, List.all_eq_true.mp h⟩
      · rintro ⟨c, idc, heq, hck, hid⟩
        rcases hck with rfl | rfl
        · rw [List.nil_append] at heq
          exact List.all_eq_true.mpr fun x hx => hid x (heq ▸ hx)
        · rw [List.cons_append, List.nil_append] at heq
          injection heq with h0 h1
          exact absurd h0 hc

theorem kindColonId_iff (k r : List Char) :
    kindColonId k r = true ↔ ∃ rest, r = k ++ rest ∧ colonIdEnd rest = true := by
  unfold kindColonId
  by_cases h : k.isPrefixOf r = true
  · rw [if_pos h]
    obtain ⟨t, ht⟩ := List.isPrefixOf_iff_prefix.mp h
    subst ht
    rw [List.drop_left]
    constructor
    · intro h2
      exact ⟨t, rfl, h2⟩
    · rintro ⟨rest, heq, h2⟩
      have ht2 : t = rest := List.append_cancel_left heq
      exact ht2 ▸ h2
  · rw [if_neg h]
    constructor
    · intro h2
      simp at h2
    · rintro ⟨rest, heq, _⟩
      exact absurd (List.isPrefixOf_iff_prefix.mpr ⟨rest, heq.symm⟩) h

theorem matchTriggerAt_iff (l : List Char) :
    matchTriggerAt l = true ↔
      ∃ k c idc, l = '@' :: (k ++ c ++ idc) ∧
        (k = [] ∨ k = ['f', 'i', 'g'] ∨ k = ['t', 'b', 'l']) ∧
        (c = [] ∨ c = [':']) ∧ ∀ ch ∈ idc, isIdChar ch = true := by
  cases l with
  | nil =>
    constructor
    · intro h
      simp [matchTriggerAt] at h
    · rintro ⟨k, c, idc, heq, _⟩
      exact absurd heq (by simp)
  | cons c0 rest =>
    rw [matchTriggerAt, Bool.and_eq_true, decide_eq_true_eq]
    constructor
    · rintro ⟨rfl, htail⟩
      unfold triggerTail at htail
      rw [Bool.or_eq_true, Bool.or_eq_true] at htail
      rcases htail with (hfig | htbl) | hplain
      · obtain ⟨rest2, heq2, h2⟩ := (kindColonId_iff _ _).mp hfig
        obtain ⟨c, idc, heq3, hck, hid⟩ := (colonIdEnd_iff _).mp h2
        refine ⟨['f', 'i', 'g'], c, idc, ?_, Or.inr (Or.inl rfl), hck, hid⟩
        rw [heq2, heq3]
        simp [List.append_assoc]
      · obtain ⟨rest2, heq2, h2⟩ := (kindColonId_iff _ _).mp htbl
        obtain ⟨c, idc, heq3, hck, hid⟩ := (colonIdEnd_iff _).mp h2
        refine ⟨['t', 'b', 'l'], c, idc, ?_, Or.inr (Or.inr rfl), hck, hid⟩
        rw [heq2, heq3]
        simp [List.append_assoc]
      · obtain ⟨c, idc, heq3, hck, hid⟩ := (colonIdEnd_iff _).mp hplain
        refine ⟨[], c, idc, ?_, Or.inl rfl, hck, hid⟩
        rw [heq3]
        simp
    · rintro ⟨k, c, idc, heq, hk, hc, hid⟩
      injection heq with h0 h1
      subst h0
      subst h1
      refine ⟨rfl, ?_⟩
      unfold triggerTail
      rw [Bool.or_eq_true, Bool.or_eq_true]
      have hce : colonIdEnd (c ++ idc) = true :=
        (colonIdEnd_iff _).mpr ⟨c, idc, rfl, hc, hid⟩
      rcases hk with rfl | rfl | rfl
      · right
        simpa using hce
      · left; left
        exact (kindColonId_iff _ _).mpr ⟨c ++ idc, by simp, hce⟩
      · left; right
        exact (kindColonId_iff _ _).mpr ⟨c ++ idc, by simp, hce⟩

theorem findTrigger_isSome (l : List Char) (p : Nat) :
    (findTrigger l p).isSome = true ↔ ∃ i, matchTriggerAt (l.drop i) = true := by
  induction l generalizing p with
  | nil =>
    simp [findTrigger, matchTriggerAt]
  | cons c rest ih =>
    by_cases h : matchTriggerAt (c :: rest) = true
    · rw [findTrigger, if_pos h]
      simp only [Option.isSome_some, true_iff]
      exact ⟨0, h⟩
    · rw [findTrigger, if_neg h, ih (p + 1)]
      constructor
      · rintro ⟨i, hi⟩
        exact ⟨i + 1, by simpa using hi⟩
      · rintro ⟨i, hi⟩
        cases i with
        | zero => exact absurd (by simpa using hi) h
        | succ i => exact ⟨i, by simpa using hi⟩

/-! ## Open-parenthesis test lemma -/

theorem testOpenParenWs_iff (l : List Char) :
    testOpenParenWs l = true ↔ specOpenParenWs l := by
  induction l with
  | nil =>
    constructor
    · intro h
      simp [testOpenParenWs] at h
    · rintro ⟨a, p, w, heq, _⟩
      cases a <;> simp at heq
  | cons c rest ih =>
    rw [testOpenParenWs, Bool.or_eq_true, Bool.and_eq_true, Bool.or_eq_true]
    constructor
    · rintro (⟨hp, hw⟩ | h)
      · refine ⟨[], c, rest, rfl, ?_, List.all_eq_true.mp hw⟩
        rcases hp with hp | hp
        · exact Or.inl (by simpa using hp)
        · exact Or.inr (by simpa using hp)
      · obtain ⟨a, p, w, heq, hp, hw⟩ := ih.mp h
        exact ⟨c :: a, p, w, by rw [heq, List.cons_append], hp, hw⟩
    · rintro ⟨a, p, w, heq, hp, hw⟩
      cases a with
      | nil =>
        rw [List.nil_append] at heq
        injection heq with h0 h1
        subst h0
        subst h1
        left
        refine ⟨?_, List.all_eq_true.mpr hw⟩
        rcases hp with rfl | rfl
        · exact Or.inl (by simp)
        · exact Or.inr (by simp)
      | cons a0 a2 =>
        rw [List.cons_append] at heq
        injection heq with h0 h1
        right
        exact ih.mpr ⟨a2, p, w, h1, hp, hw⟩

/-! ## Claim theorems: trigger, commit, cursor overlap, ordering -/

/-- C2 (amended): the suggestion provider triggers exactly when the line
prefix up to the cursor ends with `@` followed by an optional partial kind
(`fig` or `tbl`), an optional colon, and id characters — regardless of the
character preceding the `@`.  In particular a prefix ending in `[@` also
triggers (the claimed whitespace/start-of-line guard is not present in the
code). -/
theorem suggest_trigger_condition (line : List Char) (ch : Nat) :
    onTrigger line ch ≠ none ↔ specTrigger (line.take ch) := by
  rw [onTrigger, Option.ne_none_iff_isSome, findTrigger_isSome]
  unfold specTrigger
  constructor
  · rintro ⟨i, hi⟩
    obtain ⟨k, c, idc, heq, hk, hc, hid⟩ := (matchTriggerAt_iff _).mp hi
    exact ⟨(line.take ch).take i, k, c, idc,
      by rw [← heq]; exact (List.take_append_drop i _).symm, hk, hc, hid⟩
  · rintro ⟨pre, k, c, idc, heq, hk, hc, hid⟩
    refine ⟨pre.length, ?_⟩
    rw [heq, List.drop_left]
    exact (matchTriggerAt_iff _).mpr ⟨k, c, idc, rfl, hk, hc, hid⟩

/-- C2 witness: on the line `x@` with the cursor after the `@`, the provider
triggers (by the amended condition, via `suggest_trigger_condition`). -/
theorem suggest_trigger_condition_witness : onTrigger ['x', '@'] 2 ≠ none :=
  (suggest_trigger_condition ['x', '@'] 2).mpr
    ⟨['x'], [], [], [], rfl, Or.inl rfl, Or.inl rfl, by simp⟩

/-- C2 counterexample: the prefix `[@` (cursor after the `@`) does trigger
the provider, although the claim states that a trailing citation beginning
with `[@` must never trigger it. -/
theorem suggest_trigger_bracket_cex : onTrigger ['[', '@'] 2 ≠ none := by decide

/-- C10: cursor-overlap suppression tests closed-interval intersection: a
span `[f, t]` is suppressed exactly when some selection range has
`from ≤ t` and `to ≥ f`; consequently an empty cursor sitting exactly on the
span's start or end boundary already suppresses it. -/
theorem cursor_overlap_closed_interval :
    (∀ ranges f t, checkCursorOverlap ranges f t = true ↔
        ∃ r ∈ ranges, r.fromPos ≤ t ∧ r.toPos ≥ f) ∧
    (∀ s k, checkCursorOverlap [⟨s, s⟩] s (s + k) = true ∧
        checkCursorOverlap [⟨s + k, s + k⟩] s (s + k) = true) := by
  constructor
  · intro ranges f t
    simp [checkCursorOverlap, List.any_eq_true, Bool.and_eq_true]
  · intro s k
    refine ⟨?_, ?_⟩ <;> simp [checkCursorOverlap]

/-- C10 witness: a cursor sitting exactly at a span's start boundary
suppresses the span (via `cursor_overlap_closed_interval`). -/
theorem cursor_overlap_closed_interval_witness :
    checkCursorOverlap [⟨5, 5⟩] 5 9 = true :=
  (cursor_overlap_closed_interval.2 5 4).1

/-- C4 (amended): the committed text is `@kind:id` when auto-brackets is
disabled; with auto-brackets enabled it is `(@kind:id)` unless the line text
before the trigger start ends with an open parenthesis (ASCII or full-width)
followed only by whitespace, in which case no parentheses are added.  (The
code's exception also fires when whitespace separates the parenthesis from
the trigger; the claim allowed only a parenthesis immediately at the end.) -/
theorem suggest_commit_text (b : Bool) (linePfx : List Char) (d : PandocDef) :
    (b = false → selectSuggestionText b linePfx d = bareCite d) ∧
    (b = true → specOpenParenWs linePfx →
      selectSuggestionText b linePfx d = bareCite d) ∧
    (b = true → ¬specOpenParenWs linePfx →
      selectSuggestionText b linePfx d = '(' :: bareCite d ++ [')']) := by
  refine ⟨?_, ?_, ?_⟩
  · rintro rfl
    simp [selectSuggestionText]
  · rintro rfl hspec
    have h : testOpenParenWs linePfx = true := (testOpenParenWs_iff _).mpr hspec
    simp [selectSuggestionText, h]
  · rintro rfl hspec
    have h : testOpenParenWs linePfx = false := by
      cases hh : testOpenParenWs linePfx
      · rfl
      · exact absurd ((testOpenParenWs_iff _).mp hh) hspec
    simp [selectSuggestionText, h]

/-- C4 witness: committing after a prefix ending in a bare `(` with
auto-brackets enabled inserts the unparenthesized citation (via
`suggest_commit_text`). -/
theorem suggest_commit_text_witness :
    selectSuggestionText true ['('] sampleDef = bareCite sampleDef :=
  (suggest_commit_text true ['('] sampleDef).2.1 rfl
    ⟨[], '(', [], rfl, Or.inl rfl, fun c hc => absurd hc (List.not_mem_nil c)⟩

/-- C4 counterexample: with auto-brackets enabled and the text before the
trigger being `( ` — which ends in a space, not in an open parenthesis — the
code still inserts the citation without parentheses, while the claim
requires `(@kind:id)` here. -/
theorem suggest_commit_paren_ws_cex :
    selectSuggestionText true ['(', ' '] sampleDef = bareCite sampleDef ∧
    selectSuggestionText true ['(', ' '] sampleDef ≠ '(' :: bareCite sampleDef ++ [')'] ∧
    (['(', ' '] : List Char).getLast? = some ' ' := by decide

/-- C8 (amended): the overlay-span set handed to the renderer is sorted
ascending by start offset.  (Non-overlap does not hold in general: see the
counterexample.) -/
theorem decorations_sorted_by_start (s : Settings) (lines : List (List Char))
    (sel : List SelRange) :
    (buildDecorations s lines sel).Pairwise fun a b => a.start ≤ b.start := by
  unfold buildDecorations
  exact pairwise_sortSpans _

/-- C8 counterexample: in the document `{#fig:a (@fig:b)} x` (cursor far
away) the definition marker's lazy attribute text swallows the parenthesized
citation, so the engine emits a definition span `[0, 17)` and a reference
span `[8, 16)` that overlap. -/
theorem decorations_overlap_cex :
    (buildDecorations stdSettings overlapDoc farSel).length = 2 ∧
    spansOverlap ((buildDecorations stdSettings overlapDoc farSel).getD 0 noSpan)
      ((buildDecorations stdSettings overlapDoc farSel).getD 1 noSpan) := by decide

/-! ## Span-builder inversion lemmas -/

theorem mem_buildDefSpans_inv (text : List Char) (defs : List (List Char × PandocDef))
    (sel : List SelRange) (ec : Bool) (sp : OverlaySpan)
    (h : sp ∈ buildDefSpans text defs sel ec) :
    ∃ m d, m ∈ findAllDefs text ∧ mapGet m.id defs = some d ∧
      checkCursorOverlap sel m.start m.stop = false ∧
      sp = ⟨m.start, m.stop, defDisplay d, true, none, defIsError ec d⟩ := by
  unfold buildDefSpans at h
  rcases List.mem_filterMap.mp h with ⟨m, hm, hf⟩
  by_cases hov : checkCursorOverlap sel m.start m.stop = true
  · simp [hov] at hf
  · have hov2 : checkCursorOverlap sel m.start m.stop = false :=
      Bool.eq_false_iff.mpr hov
    cases hget : mapGet m.id defs with
    | none => simp [hov2, hget] at hf
    | some d =>
      simp only [hov2, Bool.false_eq_true, if_false, hget] at hf
      injection hf with hf
      exact ⟨m, d, hm, hget, hov2, hf.symm⟩

theorem mem_buildRefSpans_not_def (s : Settings) (text : List Char)
    (defs : List (List Char × PandocDef)) (sel : List SelRange) (sp : OverlaySpan)
    (h : sp ∈ buildRefSpans s text defs sel) : sp.isDef = false := by
  unfold buildRefSpans at h
  rcases List.mem_filterMap.mp h with ⟨m, hm, hf⟩
  by_cases hov : checkCursorOverlap sel m.start m.stop = true
  · simp [hov] at hf
  · have hov2 : checkCursorOverlap sel m.start m.stop = false :=
      Bool.eq_false_iff.mpr hov
    cases hget : mapGet m.id defs with
    | none =>
      simp only [hov2, Bool.false_eq_true, if_false, hget] at hf
      injection hf with hf
      rw [← hf]
    | some d =>
      simp only [hov2, Bool.false_eq_true, if_false, hget] at hf
      injection hf with hf
      rw [← hf]

/-! ## Claim theorems: integrity flags and reference overlays -/

/-- C5: a definition is flagged orphan exactly when integrity checking is
enabled and its `usageCount` is zero; the decoration engine's definition
overlays and the navigator compute this flag by the same function, so they
always agree for the same definition and flag value. -/
theorem orphan_flag_consistent :
    (∀ (e : Bool) (d : PandocDef), defIsError e d = true ↔ e = true ∧ d.usageCount = 0) ∧
    (∀ (e : Bool) (d : PandocDef), navIsOrphan e d = defIsError e d) ∧
    (∀ (s : Settings) (lines : List (List Char)) (sel : List SelRange) (sp : OverlaySpan),
      sp ∈ buildDecorations s lines sel → sp.isDef = true →
      ∃ d, (∃ k, (k, d) ∈ (scanDocument s lines).defs) ∧
        sp.isError = defIsError s.enableIntegrityCheck d) ∧
    (∀ (s : Settings) (lines : List (List Char)) (en : NavEntry),
      en ∈ navEntries s lines →
      ∃ d, (∃ k, (k, d) ∈ (scanDocument s lines).defs) ∧
        en.isOrphan = navIsOrphan s.enableIntegrityCheck d) := by
  refine ⟨?_, ?_, ?_, ?_⟩
  · intro e d
    simp [defIsError, Bool.and_eq_true]
  · intro e d
    rfl
  · intro s lines sel sp hsp hdef
    unfold buildDecorations at hsp
    rw [mem_sortSpans] at hsp
    rcases List.mem_append.mp hsp with h | h
    · obtain ⟨m, d, hm, hget, hov, rfl⟩ := mem_buildDefSpans_inv _ _ _ _ _ h
      exact ⟨d, ⟨m.id, mapGet_mem _ _ _ hget⟩, rfl⟩
    · have := mem_buildRefSpans_not_def _ _ _ _ _ h
      rw [hdef] at this
      cases this
  · intro s lines en hen
    unfold navEntries at hen
    rcases List.mem_map.mp hen with ⟨e0, he0, heq⟩
    refine ⟨e0.2, ⟨e0.1, he0⟩, ?_⟩
    rw [← heq]

/-- C5 witness: in the re-definition document the single (uncited)
definition's navigator entry is orphan-flagged consistently with the
decoration-engine formula (via `orphan_flag_consistent`). -/
theorem orphan_flag_consistent_witness :
    ∃ d, (∃ k, (k, d) ∈ (scanDocument stdSettings redefDoc).defs) ∧
      ((navEntries stdSettings redefDoc).getD 0 ⟨[], false, 0⟩).isOrphan =
        navIsOrphan stdSettings.enableIntegrityCheck d :=
  orphan_flag_consistent.2.2.2 stdSettings redefDoc _ (by decide)

/-- C6: every parenthesized citation whose id has no definition yields a
placeholder overlay `(prefix?suffix)` with `isError` equal to the
integrity-check flag and no jump target — the unresolved id is rendered, not
a failure (the builders are total functions). -/
theorem broken_ref_placeholder (s : Settings) (lines : List (List Char))
    (sel : List SelRange) (m : ParenRef)
    (hm : m ∈ findAllParenRefs (docText lines))
    (hd : mapGet m.id (scanDocument s lines).defs = none)
    (hov : checkCursorOverlap sel m.start m.stop = false) :
    (⟨m.start, m.stop, '(' :: (pfxOf s m.kind ++ '?' :: jsTrim m.sfx) ++ [')'],
        false, none, s.enableIntegrityCheck⟩ : OverlaySpan)
      ∈ buildDecorations s lines sel := by
  unfold buildDecorations
  rw [mem_sortSpans]
  apply List.mem_append_right
  unfold buildRefSpans
  apply List.mem_filterMap.mpr
  exact ⟨m, hm, by simp [hov, hd]⟩

/-- C6 witness: `(@fig:missing)` with integrity checking enabled renders as
`(图?)` with `isError = true` and no jump target (via
`broken_ref_placeholder`). -/
theorem broken_ref_placeholder_witness :
    (⟨0, 14, '(' :: (pfxOf stdSettings Kind.fig ++ '?' :: jsTrim []) ++ [')'],
        false, none, stdSettings.enableIntegrityCheck⟩ : OverlaySpan)
      ∈ buildDecorations stdSettings brokenRefDoc farSel :=
  broken_ref_placeholder stdSettings brokenRefDoc farSel
    ⟨Kind.fig, "missing".data, [], 0, 14⟩ (by decide) (by decide) (by decide)

/-- C7: every parenthesized citation whose id resolves yields an overlay
displaying the opening parenthesis, the definition's label concatenated with
the whitespace-trimmed manual suffix, and the closing parenthesis, jumping
to the definition's source line. -/
theorem resolved_ref_display (s : Settings) (lines : List (List Char))
    (sel : List SelRange) (m : ParenRef) (d : PandocDef)
    (hm : m ∈ findAllParenRefs (docText lines))
    (hd : mapGet m.id (scanDocument s lines).defs = some d)
    (hov : checkCursorOverlap sel m.start m.stop = false) :
    (⟨m.start, m.stop, '(' :: (d.fullLabel ++ jsTrim m.sfx) ++ [')'],
        false, some d.line, false⟩ : OverlaySpan)
      ∈ buildDecorations s lines sel := by
  unfold buildDecorations
  rw [mem_sortSpans]
  apply List.mem_append_right
  unfold buildRefSpans
  apply List.mem_filterMap.mpr
  exact ⟨m, hm, by simp [hov, hd]⟩

/-- C7 witness: `(@fig:granite a)` citing the first figure displays
`(图1a)` — the manual suffix `" a"` is trimmed to `"a"` before
concatenation — and jumps to line 0 (via `resolved_ref_display`). -/
theorem resolved_ref_display_witness :
    (⟨32, 48,
        '(' :: (("图1".data : List Char) ++ jsTrim (" a".data)) ++ [')'],
        false, some 0, false⟩ : OverlaySpan)
      ∈ buildDecorations stdSettings resolvedRefDoc farSel :=
  resolved_ref_display stdSettings resolvedRefDoc farSel
    ⟨Kind.fig, "granite".data, " a".data, 32, 48⟩
    ⟨"granite".data, Kind.fig, 1, [], "Granite".data, "图1".data, 0, 1⟩
    (by decide) (by decide) (by decide)

/-! ## Scanner-loop lemmas -/

theorem nthD_mem {α : Type} (l : List α) (j : Nat) (d : α) (h : j < l.length) :
    nthD l j d ∈ l := by
  induction l generalizing j with
  | nil => simp at h
  | cons a t ih =>
    cases j with
    | zero => exact List.mem_cons_self _ _
    | succ j => exact List.mem_cons_of_mem _ (ih j (Nat.lt_of_succ_lt_succ h))

theorem mem_take_nthD {α : Type} (l : List α) (n : Nat) (x : α) (d : α)
    (h : x ∈ l.take n) : ∃ j, j < n ∧ j < l.length ∧ nthD l j d = x := by
  induction l generalizing n with
  | nil => simp at h
  | cons a t ih =>
    cases n with
    | zero => simp at h
    | succ n =>
      rcases List.mem_cons.mp h with rfl | h2
      · exact ⟨0, Nat.succ_pos n, Nat.succ_pos t.length, rfl⟩
      · obtain ⟨j, hj1, hj2, hj3⟩ := ih n h2
        exact ⟨j + 1, Nat.succ_lt_succ hj1, Nat.succ_lt_succ hj2, hj3⟩

theorem countB_eq_zero {α : Type} (p : α → Bool) (l : List α)
    (h : ∀ x ∈ l, p x = false) : countB p l = 0 := by
  induction l with
  | nil => rfl
  | cons a t ih =>
    have ha := h a (List.mem_cons_self _ _)
    simp [countB, ha, ih fun x hx => h x (List.mem_cons_of_mem _ hx)]

theorem lineKind_of_none (l : List Char) (h : findFirstDef l = none) :
    lineKind l = none := by
  simp [lineKind, h]

theorem lineKind_of_some (l : List Char) (m : DefMatch) (h : findFirstDef l = some m) :
    lineKind l = some m.kind := by
  simp [lineKind, h]

theorem countKind_append_one (k : Kind) (ls : List (List Char)) (l : List Char) :
    countKind k (ls ++ [l]) =
      countKind k ls + (if lineKind l = some k then 1 else 0) := by
  rw [countKind, countB_append]
  simp [countKind, countB]

theorem defIdsOf_append_none (ls : List (List Char)) (l : List Char)
    (h : findFirstDef l = none) : defIdsOf (ls ++ [l]) = defIdsOf ls := by
  simp [defIdsOf, List.filterMap_append, h]

theorem defIdsOf_append_some (ls : List (List Char)) (l : List Char) (m : DefMatch)
    (h : findFirstDef l = some m) : defIdsOf (ls ++ [l]) = defIdsOf ls ++ [m.id] := by
  simp [defIdsOf, List.filterMap_append, h]

theorem mem_defIdsOf (ls : List (List Char)) (j : Nat) (m : DefMatch)
    (hj : j < ls.length) (h : findFirstDef (nthD ls j []) = some m) :
    m.id ∈ defIdsOf ls := by
  unfold defIdsOf
  exact List.mem_filterMap.mpr ⟨nthD ls j [], nthD_mem ls j [] hj, by simp [h]⟩

theorem stripUsage_fields (a b : PandocDef) (h : stripUsage a = stripUsage b) :
    a.id = b.id ∧ a.type = b.type ∧ a.number = b.number ∧ a.line = b.line ∧
      a.fullLabel = b.fullLabel ∧ a.caption = b.caption ∧ a.sfx = b.sfx := by
  have h1 := congrArg PandocDef.id h
  have h2 := congrArg PandocDef.type h
  have h3 := congrArg PandocDef.number h
  have h4 := congrArg PandocDef.line h
  have h5 := congrArg PandocDef.fullLabel h
  have h6 := congrArg PandocDef.caption h
  have h7 := congrArg PandocDef.sfx h
  exact ⟨h1, h2, h3, h4, h5, h6, h7⟩

theorem scanLine_none (fp tp : List Char) (i : Nat) (l : List Char) (st : ScanState)
    (h : findFirstDef l = none) :
    scanLine fp tp i l st =
      { st with refIds := (findAllBareRefs l).foldl (fun s r => setAdd s r.id) st.refIds } := by
  simp [scanLine, h]

theorem scanLine_fig (fp tp : List Char) (i : Nat) (l : List Char) (st : ScanState)
    (m : DefMatch) (h : findFirstDef l = some m) (hk : m.kind = Kind.fig) :
    scanLine fp tp i l st =
      ⟨mapSet m.id
          ⟨m.id, Kind.fig, st.figCount + 1, m.sfx, (findCaption l).getD [],
            fp ++ natStr (st.figCount + 1) ++ m.sfx, i, 0⟩ st.defs,
        (findAllBareRefs l).foldl (fun s r => setAdd s r.id) st.refIds,
        st.figCount + 1, st.tblCount⟩ := by
  simp [scanLine, h, hk]

theorem scanLine_tbl (fp tp : List Char) (i : Nat) (l : List Char) (st : ScanState)
    (m : DefMatch) (h : findFirstDef l = some m) (hk : m.kind = Kind.tbl) :
    scanLine fp tp i l st =
      ⟨mapSet m.id
          ⟨m.id, Kind.tbl, st.tblCount + 1, m.sfx, (findCaption l).getD [],
            tp ++ natStr (st.tblCount + 1) ++ m.sfx, i, 0⟩ st.defs,
        (findAllBareRefs l).foldl (fun s r => setAdd s r.id) st.refIds,
        st.figCount, st.tblCount + 1⟩ := by
  simp [scanLine, h, hk]

theorem entry_clause_stable (hist : List (List Char)) (l : List Char)
    (e : List Char × PandocDef)
    (h : e.2.usageCount = 0 ∧ e.2.id = e.1 ∧ e.2.line < hist.length ∧
      (∃ m, findFirstDef (nthD hist e.2.line []) = some m ∧ m.id = e.1 ∧ m.kind = e.2.type) ∧
      e.2.number = countKind e.2.type (hist.take (e.2.line + 1))) :
    e.2.usageCount = 0 ∧ e.2.id = e.1 ∧ e.2.line < (hist ++ [l]).length ∧
      (∃ m, findFirstDef (nthD (hist ++ [l]) e.2.line []) = some m ∧
        m.id = e.1 ∧ m.kind = e.2.type) ∧
      e.2.number = countKind e.2.type ((hist ++ [l]).take (e.2.line + 1)) := by
  obtain ⟨hu, hid, hlt, ⟨m2, hm2, hmid, hmk⟩, hnum⟩ := h
  refine ⟨hu, hid, ?_, ⟨m2, ?_, hmid, hmk⟩, ?_⟩
  · simp only [List.length_append, List.length_cons, List.length_nil]
    omega
  · rw [nthD_append_left hist [l] e.2.line [] hlt]
    exact hm2
  · rw [take_append_le hist [l] (e.2.line + 1) (Nat.succ_le_of_lt hlt)]
    exact hnum

theorem refMem_step (hist : List (List Char)) (l : List Char) (s0 : List (List Char))
    (hMem : ∀ x, x ∈ s0 ↔ ∃ l2 ∈ hist, ∃ r ∈ findAllBareRefs l2, r.id = x)
    (x : List Char) :
    x ∈ (findAllBareRefs l).foldl (fun s r => setAdd s r.id) s0 ↔
      ∃ l2 ∈ hist ++ [l], ∃ r ∈ findAllBareRefs l2, r.id = x := by
  rw [foldl_setAddId_mem]
  simp only [hMem, List.mem_append, List.mem_singleton]
  constructor
  · rintro (⟨l2, hl2, hr⟩ | ⟨r, hr, hx⟩)
    · exact ⟨l2, Or.inl hl2, hr⟩
    · exact ⟨l, Or.inr rfl, r, hr, hx⟩
  · rintro ⟨l2, hl2 | rfl, hr⟩
    · exact Or.inl ⟨l2, hl2, hr⟩
    · exact Or.inr hr

theorem scanInv_step (fp tp : List Char) (hist : List (List Char)) (st : ScanState)
    (l : List Char) (h : ScanInv hist st) :
    ScanInv (hist ++ [l]) (scanLine fp tp hist.length l st) := by
  have hlen : (hist ++ [l]).length = hist.length + 1 := by simp
  cases hdef : findFirstDef l with
  | none =>
    rw [scanLine_none fp tp hist.length l st hdef]
    refine ⟨h.keysNodup, ?_, ?_, ?_, ?_, ?_, ?_⟩
    · intro e he
      exact entry_clause_stable hist l e (h.entry e he)
    · show st.figCount = _
      rw [countKind_append_one, lineKind_of_none l hdef]
      simp [h.figCount]
    · show st.tblCount = _
      rw [countKind_append_one, lineKind_of_none l hdef]
      simp [h.tblCount]
    · exact foldl_setAddId_nodup _ _ h.refNodup
    · exact refMem_step hist l st.refIds h.refMem
    · intro hn j hj m2 hm2
      rw [defIdsOf_append_none hist l hdef] at hn
      rcases Nat.lt_or_ge j hist.length with hjlt | hge
      · rw [nthD_append_left hist [l] j [] hjlt] at hm2
        exact h.survival hn j hjlt m2 hm2
      · have hj2 : j = hist.length := by omega
        subst hj2
        rw [nthD_append_len hist [] l []] at hm2
        rw [hdef] at hm2
        cases hm2
  | some m =>
    cases hk : m.kind with
    | fig =>
      rw [scanLine_fig fp tp hist.length l st m hdef hk]
      have hlk : lineKind l = some Kind.fig := by
        rw [lineKind_of_some l m hdef, hk]
      refine ⟨keysNodup_mapSet _ _ _ h.keysNodup, ?_, ?_, ?_, ?_, ?_, ?_⟩
      · intro e he
        rcases mem_mapSet _ _ _ _ he with rfl | hold
        · refine ⟨rfl, rfl, ?_, ⟨m, ?_, rfl, hk⟩, ?_⟩
          · show hist.length < (hist ++ [l]).length
            rw [hlen]
            exact Nat.lt_succ_self _
          · show findFirstDef (nthD (hist ++ [l]) hist.length []) = some m
            rw [nthD_append_len hist [] l []]
            exact hdef
          · show st.figCount + 1 = countKind Kind.fig ((hist ++ [l]).take (hist.length + 1))
            rw [take_ge (hist ++ [l]) (hist.length + 1) (Nat.le_of_eq hlen),
              countKind_append_one, hlk]
            simp [h.figCount]
        · exact entry_clause_stable hist l e (h.entry e hold)
      · show st.figCount + 1 = _
        rw [countKind_append_one, hlk]
        simp [h.figCount]
      · show st.tblCount = _
        rw [countKind_append_one, hlk]
        simp [h.tblCount]
      · exact foldl_setAddId_nodup _ _ h.refNodup
      · exact refMem_step hist l st.refIds h.refMem
      · intro hn j hj m2 hm2
        rw [defIdsOf_append_some hist l m hdef, List.nodup_append] at hn
        have hnotin : m.id ∉ defIdsOf hist := fun hmem =>
          hn.2.2 hmem (List.mem_singleton.mpr rfl)
        rcases Nat.lt_or_ge j hist.length with hjlt | hge
        · rw [nthD_append_left hist [l] j [] hjlt] at hm2
          obtain ⟨d, hget, hline, htype⟩ := h.survival hn.1 j hjlt m2 hm2
          have hne : ¬m2.id = m.id := fun heq =>
            hnotin (heq ▸ mem_defIdsOf hist j m2 hjlt hm2)
          refine ⟨d, ?_, hline, htype⟩
          rw [mapGet_mapSet, if_neg hne]
          exact hget
        · have hj2 : j = hist.length := by omega
          subst hj2
          rw [nthD_append_len hist [] l []] at hm2
          rw [hdef] at hm2
          injection hm2 with hm2
          subst hm2
          refine ⟨⟨m.id, Kind.fig, st.figCount + 1, m.sfx, (findCaption l).getD [],
              fp ++ natStr (st.figCount + 1) ++ m.sfx, hist.length, 0⟩, ?_, rfl, hk.symm⟩
          rw [mapGet_mapSet, if_pos rfl]
    | tbl =>
      rw [scanLine_tbl fp tp hist.length l st m hdef hk]
      have hlk : lineKind l = some Kind.tbl := by
        rw [lineKind_of_some l m hdef, hk]
      refine ⟨keysNodup_mapSet _ _ _ h.keysNodup, ?_, ?_, ?_, ?_, ?_, ?_⟩
      · intro e he
        rcases mem_mapSet _ _ _ _ he with rfl | hold
        · refine ⟨rfl, rfl, ?_, ⟨m, ?_, rfl, hk⟩, ?_⟩
          · show hist.length < (hist ++ [l]).length
            rw [hlen]
            exact Nat.lt_succ_self _
          · show findFirstDef (nthD (hist ++ [l]) hist.length []) = some m
            rw [nthD_append_len hist [] l []]
            exact hdef
          · show st.tblCount + 1 = countKind Kind.tbl ((hist ++ [l]).take (hist.length + 1))
            rw [take_ge (hist ++ [l]) (hist.length + 1) (Nat.le_of_eq hlen),
              countKind_append_one, hlk]
            simp [h.tblCount]
        · exact entry_clause_stable hist l e (h.entry e hold)
      · show st.figCount = _
        rw [countKind_append_one, hlk]
        simp [h.figCount]
      · show st.tblCount + 1 = _
        rw [countKind_append_one, hlk]
        simp [h.tblCount]
      · exact foldl_setAddId_nodup _ _ h.refNodup
      · exact refMem_step hist l st.refIds h.refMem
      · intro hn j hj m2 hm2
        rw [defIdsOf_append_some hist l m hdef, List.nodup_append] at hn
        have hnotin : m.id ∉ defIdsOf hist := fun hmem =>
          hn.2.2 hmem (List.mem_singleton.mpr rfl)
        rcases Nat.lt_or_ge j hist.length with hjlt | hge
        · rw [nthD_append_left hist [l] j [] hjlt] at hm2
          obtain ⟨d, hget, hline, htype⟩ := h.survival hn.1 j hjlt m2 hm2
          have hne : ¬m2.id = m.id := fun heq =>
            hnotin (heq ▸ mem_defIdsOf hist j m2 hjlt hm2)
          refine ⟨d, ?_, hline, htype⟩
          rw [mapGet_mapSet, if_neg hne]
          exact hget
        · have hj2 : j = hist.length := by omega
          subst hj2
          rw [nthD_append_len hist [] l []] at hm2
          rw [hdef] at hm2
          injection hm2 with hm2
          subst hm2
          refine ⟨⟨m.id, Kind.tbl, st.tblCount + 1, m.sfx, (findCaption l).getD [],
              tp ++ natStr (st.tblCount + 1) ++ m.sfx, hist.length, 0⟩, ?_, rfl, hk.symm⟩
          rw [mapGet_mapSet, if_pos rfl]

theorem scanInv_init : ScanInv [] ⟨[], [], 0, 0⟩ := by
  refine ⟨List.nodup_nil, ?_, rfl, rfl, List.nodup_nil, ?_, ?_⟩
  · intro e he
    cases he
  · intro x
    simp
  · intro hn j hj m hm
    simp at hj

theorem scanGo_inv (fp tp : List Char) (rest hist : List (List Char)) (st : ScanState)
    (h : ScanInv hist st) :
    ScanInv (hist ++ rest) (scanGo fp tp hist.length st rest) := by
  induction rest generalizing hist st with
  | nil => simpa using h
  | cons l rest2 ih =>
    have h2 := scanInv_step fp tp hist st l h
    have h3 := ih (hist ++ [l]) (scanLine fp tp hist.length l st) h2
    rw [List.length_append, List.length_cons, List.length_nil] at h3
    rw [List.append_assoc] at h3
    simpa [scanGo] using h3

theorem scanPre_inv (s : Settings) (lines : List (List Char)) :
    ScanInv lines (scanPre s lines) := by
  have h := scanGo_inv (getFigPfx s) (getTblPfx s) lines [] ⟨[], [], 0, 0⟩ scanInv_init
  simpa [scanPre] using h

theorem scanDocument_defs (s : Settings) (lines : List (List Char)) :
    (scanDocument s lines).defs = applyUsage (scanPre s lines).defs (scanPre s lines).refIds :=
  rfl

theorem scanDocument_refIds (s : Settings) (lines : List (List Char)) :
    (scanDocument s lines).refIds = (scanPre s lines).refIds :=
  rfl

theorem final_entry (s : Settings) (lines : List (List Char)) (e : List Char × PandocDef)
    (he : e ∈ (scanDocument s lines).defs) :
    ∃ e0 ∈ (scanPre s lines).defs, e0.1 = e.1 ∧ stripUsage e0.2 = stripUsage e.2 := by
  rw [scanDocument_defs] at he
  exact mem_applyUsage_strip _ _ e he

theorem findDefAux_spec (l : List Char) (i : Nat) (m : DefMatch) (rem : List Char)
    (h : findDefAux l i = some (m, rem)) :
    ∃ off, m.start = i + off ∧ matchDefCore (l.drop off) ≠ none ∧
      ∀ j, j < off → matchDefCore (l.drop j) = none := by
  induction l generalizing i with
  | nil => cases h
  | cons c rest ih =>
    cases hc : matchDefCore (c :: rest) with
    | some q =>
      obtain ⟨k, id2, sfx2, rem2⟩ := q
      simp only [findDefAux, hc, Option.some.injEq, Prod.mk.injEq] at h
      refine ⟨0, ?_, ?_, ?_⟩
      · rw [← h.1]
        rfl
      · rw [List.drop_zero, hc]
        exact fun hh => Option.noConfusion hh
      · intro j hj
        omega
    | none =>
      simp only [findDefAux, hc] at h
      obtain ⟨off, h1, h2, h3⟩ := ih (i + 1) h
      refine ⟨off + 1, by omega, ?_, ?_⟩
      · simpa using h2
      · intro j hj
        cases j with
        | zero => simpa using hc
        | succ j2 => simpa using h3 j2 (by omega)

theorem findFirstDef_spec (l : List Char) (m : DefMatch) (h : findFirstDef l = some m) :
    matchDefCore (l.drop m.start) ≠ none ∧
      ∀ j, j < m.start → matchDefCore (l.drop j) = none := by
  unfold findFirstDef at h
  cases haux : findDefAux l 0 with
  | none => rw [haux] at h; cases h
  | some pr =>
    rw [haux] at h
    simp only [Option.map_some', Option.some.injEq] at h
    obtain ⟨off, h1, h2, h3⟩ := findDefAux_spec l 0 pr.1 pr.2 (by rw [haux])
    rw [h] at h1
    have hoff : off = m.start := by omega
    subst hoff
    exact ⟨h2, h3⟩

/-! ## Claim theorems: scanner counting and numbering -/

/-- C1 (amended): after scanning, a definition's `usageCount` is 1 when the
document contains at least one bare citation `@kind:id` with its id and 0
otherwise — repeated citations to the same id are deduplicated by the
`refIds` set and do not count separately. -/
theorem scan_usage_count (s : Settings) (lines : List (List Char)) (id : List Char)
    (d : PandocDef) (hd : mapGet id (scanDocument s lines).defs = some d) :
    (d.usageCount = if id ∈ (scanDocument s lines).refIds then 1 else 0) ∧
    (id ∈ (scanDocument s lines).refIds ↔
      ∃ l ∈ lines, ∃ r ∈ findAllBareRefs l, r.id = id) := by
  have inv := scanPre_inv s lines
  rw [scanDocument_defs, mapGet_applyUsage] at hd
  cases hget : mapGet id (scanPre s lines).defs with
  | none =>
    rw [hget] at hd
    cases hd
  | some v =>
    rw [hget] at hd
    simp only [Option.map_some', Option.some.injEq] at hd
    have hv0 : v.usageCount = 0 := (inv.entry (id, v) (mapGet_mem _ _ _ hget)).1
    have hcnt := countB_nodup_mem (scanPre s lines).refIds id inv.refNodup
    constructor
    · rw [← hd]
      show v.usageCount + _ = _
      rw [hv0, hcnt, scanDocument_refIds]
      simp
    · rw [scanDocument_refIds]
      exact inv.refMem id

/-- C1 witness: in a document with one definition of `x` and a line citing
`@fig:x` three times, `usageCount` follows the amended formula (via
`scan_usage_count`). -/
theorem scan_usage_count_witness :
    (⟨"x".data, Kind.fig, 1, [], [], "图1".data, 0, 1⟩ : PandocDef).usageCount =
      if "x".data ∈ (scanDocument stdSettings tripleCiteDoc).refIds then 1 else 0 :=
  (scan_usage_count stdSettings tripleCiteDoc "x".data
    ⟨"x".data, Kind.fig, 1, [], [], "图1".data, 0, 1⟩ (by decide)).1

/-- C1 counterexample: three textual occurrences of `@fig:x` yield
`usageCount = 1`, not 3 as the claim states. -/
theorem scan_usage_count_cex :
    bareRefOccurrences tripleCiteDoc "x".data = 3 ∧
    (mapGet "x".data (scanDocument stdSettings tripleCiteDoc).defs).map
        PandocDef.usageCount ≠ some 3 ∧
    (mapGet "x".data (scanDocument stdSettings tripleCiteDoc).defs).map
        PandocDef.usageCount = some 1 := by decide

/-- C3 (amended): per-kind sequence numbers of the definitions surviving in
the Index, taken in document order (by source line), are strictly
increasing; when no two recognized definition markers in the document carry
the same id, the earliest surviving definition of each kind carries number
1.  (With a re-defined id, the survivor keeps the last occurrence's number,
so the sequence need not start at 1.) -/
theorem scan_sequence_numbers (s : Settings) (lines : List (List Char)) :
    (∀ e1 ∈ (scanDocument s lines).defs, ∀ e2 ∈ (scanDocument s lines).defs,
      e1.2.type = e2.2.type → e1.2.line < e2.2.line → e1.2.number < e2.2.number) ∧
    ((defIdsOf lines).Nodup →
      ∀ e ∈ (scanDocument s lines).defs,
        (∀ e2 ∈ (scanDocument s lines).defs, e2.2.type = e.2.type → e.2.line ≤ e2.2.line) →
        e.2.number = 1) := by
  have inv := scanPre_inv s lines
  constructor
  · intro e1 he1 e2 he2 htype hline
    obtain ⟨e01, he01, hk1, hs1⟩ := final_entry s lines e1 he1
    obtain ⟨e02, he02, hk2, hs2⟩ := final_entry s lines e2 he2
    obtain ⟨_, ht1, hn1, hl1, _⟩ := stripUsage_fields _ _ hs1
    obtain ⟨_, ht2, hn2, hl2, _⟩ := stripUsage_fields _ _ hs2
    obtain ⟨_, _, hlen1, ⟨m1, hm1, hmid1, hmk1⟩, hnum1⟩ := inv.entry e01 he01
    obtain ⟨_, _, hlen2, ⟨m2, hm2, hmid2, hmk2⟩, hnum2⟩ := inv.entry e02 he02
    rw [← hn1, ← hn2, hnum1, hnum2]
    have htt : e01.2.type = e02.2.type := by rw [ht1, htype, ← ht2]
    rw [htt]
    show countB (fun l2 => decide (lineKind l2 = some e02.2.type))
        (lines.take (e01.2.line + 1)) <
      countB (fun l2 => decide (lineKind l2 = some e02.2.type))
        (lines.take (e02.2.line + 1))
    apply countB_take_lt _ lines e01.2.line e02.2.line []
    · rw [hl1, hl2]
      exact hline
    · exact hlen2
    · rw [lineKind_of_some _ _ hm2, hmk2]
      simp
  · intro hn e he hmin
    obtain ⟨e0, he0, hk0, hs0⟩ := final_entry s lines e he
    obtain ⟨hid0, ht0, hn0, hl0, _⟩ := stripUsage_fields _ _ hs0
    obtain ⟨_, _, hlen0, ⟨m0, hm0, hmid0, hmk0⟩, hnum0⟩ := inv.entry e0 he0
    rw [← hn0, hnum0]
    have hsucc := take_succ_nthD lines e0.2.line ([] : List Char) hlen0
    show countB (fun l2 => decide (lineKind l2 = some e0.2.type))
        (lines.take (e0.2.line + 1)) = 1
    rw [hsucc, countB_append]
    have hzero : countB (fun l2 => decide (lineKind l2 = some e0.2.type))
        (lines.take e0.2.line) = 0 := by
      apply countB_eq_zero
      intro l2 hl2mem
      cases hb : decide (lineKind l2 = some e0.2.type) with
      | false => rfl
      | true =>
        exfalso
        have hlk2 : lineKind l2 = some e0.2.type := of_decide_eq_true hb
        obtain ⟨j, hj1, hj2, hj3⟩ := mem_take_nthD lines e0.2.line l2 [] hl2mem
        cases hfd : findFirstDef l2 with
        | none =>
          rw [lineKind_of_none l2 hfd] at hlk2
          cases hlk2
        | some m2 =>
          have hmk2 : m2.kind = e0.2.type := by
            rw [lineKind_of_some l2 m2 hfd] at hlk2
            injection hlk2
          rw [← hj3] at hfd
          obtain ⟨d2, hget2, hline2, htype2⟩ := inv.survival hn j hj2 m2 hfd
          have hfin : (mapGet m2.id (scanDocument s lines).defs).isSome = true := by
            rw [scanDocument_defs, mapGet_applyUsage, hget2]
            rfl
          obtain ⟨d2f, hd2f⟩ := Option.isSome_iff_exists.mp hfin
          have hmemf := mapGet_mem _ _ _ hd2f
          obtain ⟨e0b, he0b, hk0b, hs0b⟩ := final_entry s lines (m2.id, d2f) hmemf
          have hgb : mapGet e0b.1 (scanPre s lines).defs = some e0b.2 :=
            mem_mapGet _ _ _ inv.keysNodup he0b
          rw [hk0b] at hgb
          rw [hget2] at hgb
          injection hgb with hgb
          obtain ⟨_, htb, _, hlb, _⟩ := stripUsage_fields _ _ hs0b
          have htb2 : e0b.2.type = d2f.type := htb
          have hlb2 : e0b.2.line = d2f.line := hlb
          have htf : d2f.type = d2.type := by rw [hgb, htb2]
          have hlf : d2f.line = j := by rw [← hline2, hgb, hlb2]
          have htyc : ((m2.id, d2f) : List Char × PandocDef).2.type = e.2.type := by
            show d2f.type = e.2.type
            rw [htf, htype2, hmk2, ht0]
          have hle2 : e.2.line ≤ d2f.line := hmin _ hmemf htyc
          omega
    rw [hzero]
    have hself : lineKind (nthD lines e0.2.line []) = some e0.2.type := by
      rw [lineKind_of_some _ _ hm0, hmk0]
    simp [countB, hself]

/-- C3 witness: for two distinct figure definitions on lines 0 and 1, the
sequence numbers are strictly increasing and start at 1 (via
`scan_sequence_numbers`). -/
theorem scan_sequence_numbers_witness :
    ((scanDocument stdSettings twoFigDoc).defs.getD 0 noDef).2.number <
      ((scanDocument stdSettings twoFigDoc).defs.getD 1 noDef).2.number ∧
    ((scanDocument stdSettings twoFigDoc).defs.getD 0 noDef).2.number = 1 := by
  constructor
  · exact (scan_sequence_numbers stdSettings twoFigDoc).1 _ (by decide) _ (by decide)
      (by decide) (by decide)
  · exact (scan_sequence_numbers stdSettings twoFigDoc).2 (by decide) _ (by decide)
      (by decide)

/-- C3 counterexample: when `{#fig:a}` is re-defined on the second line, the
single surviving figure definition carries sequence number 2 — the numbers
of the figures in the Index do not start at 1. -/
theorem scan_sequence_restart_cex :
    ((scanDocument stdSettings redefDoc).defs.map fun e => e.2.number) = [2] ∧
    ((scanDocument stdSettings redefDoc).defs.map fun e => e.2.type) = [Kind.fig] := by
  decide

/-- C9: the scanner records at most one definition per source line (two
Index entries with the same line are the same entry), and each surviving
entry corresponds to the leftmost definition-marker match of its line: the
pattern fails at every earlier start position.  Later markers on the same
line are never scanned, numbered, or inserted. -/
theorem scanner_one_def_per_line (s : Settings) (lines : List (List Char)) :
    (∀ e1 ∈ (scanDocument s lines).defs, ∀ e2 ∈ (scanDocument s lines).defs,
      e1.2.line = e2.2.line → e1 = e2) ∧
    (∀ e ∈ (scanDocument s lines).defs, ∃ m,
      findFirstDef (nthD lines e.2.line []) = some m ∧ m.id = e.1 ∧ m.kind = e.2.type ∧
      ∀ j, j < m.start → defMatchAt (nthD lines e.2.line []) j = none) := by
  have inv := scanPre_inv s lines
  constructor
  · intro e1 he1 e2 he2 hline
    obtain ⟨k1, d1⟩ := e1
    obtain ⟨k2, d2⟩ := e2
    obtain ⟨e01, he01, hk1, hs1⟩ := final_entry s lines (k1, d1) he1
    obtain ⟨e02, he02, hk2, hs2⟩ := final_entry s lines (k2, d2) he2
    obtain ⟨hid1, _, _, hl1, _⟩ := stripUsage_fields _ _ hs1
    obtain ⟨hid2, _, _, hl2, _⟩ := stripUsage_fields _ _ hs2
    obtain ⟨_, hide1, hlt1, ⟨m1, hm1, hmid1, _⟩, _⟩ := inv.entry e01 he01
    obtain ⟨_, hide2, hlt2, ⟨m2, hm2, hmid2, _⟩, _⟩ := inv.entry e02 he02
    have hll : e01.2.line = e02.2.line := by
      rw [hl1, hl2]
      exact hline
    have hmm : m1 = m2 := by
      rw [hll] at hm1
      rw [hm1] at hm2
      injection hm2
    have hk1b : e01.1 = k1 := hk1
    have hk2b : e02.1 = k2 := hk2
    have hkey : k1 = k2 := by
      rw [← hk1b, ← hmid1, hmm, hmid2, hk2b]
    subst hkey
    have hkn : ((scanDocument s lines).defs.map Prod.fst).Nodup := by
      rw [scanDocument_defs, keys_applyUsage]
      exact inv.keysNodup
    have hv : d1 = d2 := keysNodup_unique k1 d1 d2 _ hkn he1 he2
    rw [hv]
  · intro e he
    obtain ⟨e0, he0, hk0, hs0⟩ := final_entry s lines e he
    obtain ⟨hid0, ht0, _, hl0, _⟩ := stripUsage_fields _ _ hs0
    obtain ⟨_, hide0, hlt0, ⟨m0, hm0, hmid0, hmk0⟩, _⟩ := inv.entry e0 he0
    rw [← hl0]
    refine ⟨m0, hm0, ?_, ?_, ?_⟩
    · rw [hmid0, hk0]
    · rw [hmk0, ht0]
    · intro j hj
      exact (findFirstDef_spec _ _ hm0).2 j hj

/-- C9 witness: on the line `{#fig:a} {#tbl:b}` the single surviving entry is
the leftmost marker `{#fig:a}`, and the pattern matches at no earlier
position (via `scanner_one_def_per_line`). -/
theorem scanner_one_def_per_line_witness :
    ∃ m, findFirstDef (nthD twoMarkerLineDoc
        ((scanDocument stdSettings twoMarkerLineDoc).defs.getD 0 noDef).2.line []) = some m ∧
      m.id = ((scanDocument stdSettings twoMarkerLineDoc).defs.getD 0 noDef).1 ∧
      m.kind = ((scanDocument stdSettings twoMarkerLineDoc).defs.getD 0 noDef).2.type ∧
      ∀ j, j < m.start →
        defMatchAt (nthD twoMarkerLineDoc
          ((scanDocument stdSettings twoMarkerLineDoc).defs.getD 0 noDef).2.line []) j = none :=
  (scanner_one_def_per_line stdSettings twoMarkerLineDoc).2 _ (by decide)

end PandocRefs
